import Mathlib

/-!
# A verified model of streamhist (streaming approximate histogram)

This file gives a shallow embedding of `index.js` of the streamhist
package: a streaming approximate histogram in the style of Ben-Haim &
Tom-Tov (2010).  JavaScript numbers are modelled as exact rationals
(`ℚ`); the single place the code takes a square root (`_quantile`'s
quadratic interpolation) is modelled over `ℝ`.  The red-black tree of
bins (`bintrees`' `RBTree`, an external library) is modelled as a list
sorted by bin mean; the tree-iterator semantics the code relies on
(`lowerBound`, `upperBound`, `prev`/`next` wrapping from a null cursor
to the max/min node, and `insert` rejecting duplicate keys) are
reproduced on the list model.  Fallible code paths (JavaScript
`TypeError` on dereferencing `null`) are modelled with `Except`.
-/

namespace StreamHist

/-- A histogram bin: `mean` (the ordering key), `count` (total weight),
`tss` (sum of squared deviations), and the lazily refreshed cumulative
count `cumn`.  In JavaScript a fresh bin has no `cumn` property; we use
`0` for that state (it is never read before `_cumulate` overwrites it). -/
structure Bin where
  mean : ℚ
  count : ℚ
  tss : ℚ
  cumn : ℚ
deriving DecidableEq, Repr

instance : Inhabited Bin := ⟨⟨0, 0, 0, 0⟩⟩

/-- `combineBins(a, b)` from the source: merge `b` into `a` by weighted
average of means, Welford-style parallel tss merge.  The source mutates
`a` in place (leaving `a.cumn` untouched); we return the updated bin. -/
def combineBins (a b : Bin) : Bin :=
  let mean := (b.mean * b.count + a.mean * a.count) / (a.count + b.count)
  { mean := mean
    count := a.count + b.count
    tss := a.tss + b.tss + ((a.mean - mean) ^ 2 * a.count + (b.mean - mean) ^ 2 * b.count)
    cumn := a.cumn }

/-- Sum of the `count` fields of a list of bins. -/
def binSum (l : List Bin) : ℚ := (l.map Bin.count).sum

/-- The full sketch state: the sorted bin store plus the scalar fields of
the `StreamHist` object (`_maxBins`, `_weighted`, `_freeze`, `_warmUp`,
`_count`, `_cumn`, `_min`, `_max`, `_tss`).  `minv`/`maxv` are `none`
when the JavaScript field is `null`. -/
structure State where
  bins : List Bin
  maxBins : ℚ
  weighted : Bool
  freeze : ℚ
  warmUp : ℚ
  count : ℚ
  cumn : ℚ
  minv : Option ℚ
  maxv : Option ℚ
  tss : ℚ
deriving DecidableEq, Repr

/-- `Number.isInteger` on an exact rational. -/
def jsIsInt (q : ℚ) : Bool := q.den == 1

/-- `v || d` for an optional numeric argument: `undefined`, `null` and
`0` are falsy and select the default. -/
def jsOr (v : Option ℚ) (d : ℚ) : ℚ :=
  match v with
  | none => d
  | some q => if q = 0 then d else q

/-- Numeric coercion of `this.min()` as used in comparisons such as
`b < this.min()`: JavaScript coerces `null` to `0` there. -/
def jsMin (s : State) : ℚ := s.minv.getD 0

/-- Numeric coercion of `this.max()` in comparisons (`null` → `0`). -/
def jsMax (s : State) : ℚ := s.maxv.getD 0

/-- `isFrozen()`: `this.freeze() !== 0 && this.count() > this.freeze()`. -/
def isFrozen (s : State) : Prop := s.freeze ≠ 0 ∧ s.count > s.freeze

instance (s : State) : Decidable (isFrozen s) := by unfold isFrozen; infer_instance

/-- `RBTree.insert` on the mean-sorted bin list: ordered insertion that
*rejects* an item whose key (mean) already occurs (bintrees returns
`false` and leaves the tree unchanged for duplicates). -/
def treeInsert (l : List Bin) (b : Bin) : List Bin :=
  match l with
  | [] => [b]
  | h :: t =>
    if b.mean < h.mean then b :: h :: t
    else if b.mean = h.mean then h :: t
    else h :: treeInsert t b

/-- Scan step of `findNearest`: `pm`/`pIdx` are the mean and index of the
bin preceding the current position.  Mirrors the source's use of
`lowerBound` (first bin with mean ≥ p) followed by `iter.prev()` and the
strict distance comparison `|prev.mean - p| < |nearest.mean - p|`. -/
def findNearestIdxGo (x : ℚ) (pm : ℚ) (pIdx cIdx : ℕ) : List Bin → ℕ
  | [] => pIdx
  | b :: t =>
    if x ≤ b.mean then
      if b.mean = x then cIdx
      else if |pm - x| < |b.mean - x| then pIdx else cIdx
    else findNearestIdxGo x b.mean cIdx (cIdx + 1) t

/-- `findNearest(p)` returning the index of the chosen bin (`none` on an
empty sketch).  When no bin has mean ≥ p, the null-cursor `prev()` of the
iterator yields the maximal bin, which is what the scan's final
fall-through returns. -/
def findNearestIdx (x : ℚ) : List Bin → Option ℕ
  | [] => none
  | b :: t => some (if x ≤ b.mean then 0 else findNearestIdxGo x b.mean 0 1 t)

/-- The unweighted merge cost `diffBins` of two adjacent bins:
`(b.mean - a.mean)^2`. -/
def diffBinsU (a b : Bin) : ℚ := (b.mean - a.mean) ^ 2

/-- Gap-weighted merge cost `diffBins(a, b, weighted)` of the source.  The
weighted factor `ln(e + min(count))` is transcendental, so the concrete
pair selection in weighted mode is abstracted by a selection-function
parameter below; this definition records the cost itself. -/
noncomputable def diffBins (a b : Bin) (weighted : Bool) : ℝ :=
  ((diffBinsU a b : ℚ) : ℝ) *
    (if weighted then Real.log (Real.exp 1 + min a.count b.count) else 1)

/-- The source's compression scan keeps the first adjacent pair whose cost
is strictly below the best so far (`diff < maxDiff`, starting from
`Infinity`), i.e. the first argmin. -/
def firstMinIdxGo : List ℚ → ℕ → ℚ → ℕ → ℕ
  | [], _, _, best => best
  | c :: cs, i, bv, best =>
    if c < bv then firstMinIdxGo cs (i + 1) c i else firstMinIdxGo cs (i + 1) bv best

/-- Costs of all adjacent pairs (unweighted). -/
def adjCosts : List Bin → List ℚ
  | [] => []
  | [_] => []
  | a :: b :: t => diffBinsU a b :: adjCosts (b :: t)

/-- Index of the first adjacent pair of minimal unweighted cost: the pair
`_compress` merges when gap weighting is off. -/
def uSel (l : List Bin) : ℕ :=
  match adjCosts l with
  | [] => 0
  | c :: cs => firstMinIdxGo cs 1 c 0

/-- Pair selection used by compression: the faithful unweighted scan when
`weighted` is off, an arbitrary selection oracle `sel` (standing for the
floating-point gap-weighted scan) when it is on. -/
def pickSel (w : Bool) (sel : List Bin → ℕ) (l : List Bin) : ℕ :=
  if w then sel l else uSel l

/-- Replace bins `i` and `i+1` by their combination (`combineBins` keeps
the left slot, the right bin is removed from the tree).  Out-of-range
indices leave the list unchanged. -/
def mergePairAt : ℕ → List Bin → List Bin
  | 0, a :: b :: t => combineBins a b :: t
  | n + 1, a :: b :: t => a :: mergePairAt n (b :: t)
  | _, l => l

/-- The `while (size > maxBins)` loop of `_compress`, with fuel equal to
the starting length (each iteration removes one bin).  The extra
`length ≤ 1` guard marks the states in which the JavaScript loop body
would dereference `undefined` (it needs two bins to merge); no reachable
state with `maxBins ≥ 1` hits it. -/
def compressGo (w : Bool) (sel : List Bin → ℕ) (mb : ℚ) : ℕ → List Bin → List Bin
  | 0, l => l
  | fuel + 1, l =>
    if l.length ≤ 1 ∨ (l.length : ℚ) ≤ mb then l
    else compressGo w sel mb fuel (mergePairAt (pickSel w sel l) l)

/-- `_compress()` on a bin list. -/
def compress (w : Bool) (sel : List Bin → ℕ) (mb : ℚ) (l : List Bin) : List Bin :=
  compressGo w sel mb l.length l

/-- `_compress()` on the sketch state. -/
def compressState (sel : List Bin → ℕ) (s : State) : State :=
  { s with bins := compress s.weighted sel s.maxBins s.bins }

/-- The `_compress` loop with its error path made explicit.  A call with
the loop condition `size > maxBins` still true on fewer than two bins
has no adjacent pair to merge: on the first iteration (`fresh`) the pair
variables are still `undefined` and `combineBins` throws a `TypeError`
(`.error`), while on a later iteration they hold the stale already-merged
pair, whose re-merge and failed `remove` leave the size unchanged forever
(`none`, non-termination).  With fuel `length + 1` the fuel never runs
out before one of the three outcomes is reached when the selection
oracle is valid. -/
def compressGoE (w : Bool) (sel : List Bin → ℕ) (mb : ℚ) :
    ℕ → Bool → List Bin → Option (Except Unit (List Bin))
  | 0, _, l => if (l.length : ℚ) ≤ mb then some (.ok l) else none
  | fuel + 1, fresh, l =>
    if (l.length : ℚ) ≤ mb then some (.ok l)
    else if l.length ≤ 1 then (if fresh then some (.error ()) else none)
    else compressGoE w sel mb fuel false (mergePairAt (pickSel w sel l) l)

/-- `_compress()` on a bin list, with the crash (`some (.error ())`) and
non-termination (`none`) outcomes of a cap below 1 made explicit. -/
def compressE (w : Bool) (sel : List Bin → ℕ) (mb : ℚ) (l : List Bin) :
    Option (Except Unit (List Bin)) :=
  compressGoE w sel mb (l.length + 1) true l

/-- `_insert(x, count)`: update min/max and the running count, reset the
global tss cache, then either add weight to the nearest bin (exact mean
match, or frozen at capacity) or insert a fresh bin `{mean: x, count, tss: 0}`. -/
def insertStep (s : State) (x c : ℚ) : State :=
  let s1 : State :=
    { s with
      minv := some (match s.minv with | none => x | some m => min m x)
      maxv := some (match s.maxv with | none => x | some m => max m x)
      count := s.count + c
      tss := 0 }
  match findNearestIdx x s1.bins with
  | none => { s1 with bins := treeInsert s1.bins ⟨x, c, 0, 0⟩ }
  | some i =>
    let nb := s1.bins.getD i default
    if nb.mean = x ∨ (isFrozen s1 ∧ (s1.bins.length : ℚ) = s1.maxBins) then
      { s1 with bins := s1.bins.set i { nb with count := nb.count + c } }
    else
      { s1 with bins := treeInsert s1.bins ⟨x, c, 0, 0⟩ }

/-- The warm-up branch at the end of each `push` iteration: when the
running count has just reached `warmUp`, every bin's count is reset to 1
and its tss to 0 (the running `_count` itself is *not* changed). -/
def warmUpStep (s : State) : State :=
  if s.count = s.warmUp then
    { s with bins := s.bins.map fun b => { b with count := 1, tss := 0 } }
  else s

/-- One iteration of `push`'s loop: `_insert`, `_compress`, warm-up check. -/
def pushOne (sel : List Bin → ℕ) (s : State) (x c : ℚ) : State :=
  warmUpStep (compressState sel (insertStep s x c))

/-- `push(array, count)`: the loop over the input points. -/
def pushList (sel : List Bin → ℕ) (s : State) (xs : List ℚ) (c : ℚ) : State :=
  xs.foldl (fun t x => pushOne sel t x c) s

/-- The `maxBins` accessor used as a setter on its crash-free domain: a
non-integer argument falls back to 100 (`Number.isInteger(maxBins) ?
maxBins : 100`), then the sketch is compressed if it now exceeds the
cap.  Faithful only when the stored cap is at least 1 (or no compression
triggers); `maxBinsSetE` below models the accessor in full, including
the `TypeError`/non-termination of `_compress` under a smaller cap. -/
def maxBinsSet (sel : List Bin → ℕ) (s : State) (v : ℚ) : State :=
  let mb := if jsIsInt v then v else 100
  let s1 : State := { s with maxBins := mb }
  if (s1.bins.length : ℚ) > mb then compressState sel s1 else s1

/-- The `maxBins` accessor as the source runs it: store the integer (or
fallback-100) cap, then call `_compress()` when the store now exceeds
it, propagating the crash (`some (.error ())`) or non-termination
(`none`) of the compression loop. -/
def maxBinsSetE (sel : List Bin → ℕ) (s : State) (v : ℚ) : Option (Except Unit State) :=
  let mb := if jsIsInt v then v else 100
  let s1 : State := { s with maxBins := mb }
  if (s1.bins.length : ℚ) > mb then
    match compressE s1.weighted sel mb s1.bins with
    | none => none
    | some (.error e) => some (.error e)
    | some (.ok l) => some (.ok { s1 with bins := l })
  else some (.ok s1)

/-- `reset()`: clear bins and running scalars, keep configuration. -/
def reset (s : State) : State :=
  { s with bins := [], count := 0, cumn := 0, minv := none, maxv := none, tss := 0 }

/-- The `StreamHist(maxbins, weighted, freeze, warmUp)` constructor:
`maxBins(maxbins || 100)`, `weighted(weighted || false)`,
`freeze(freeze || 0)`, `warmUp(warmUp || 0)`, then `reset()`.  The
`freeze`/`warmUp` setters replace non-integer arguments by 0. -/
def mkHist (mb : Option ℚ) (w : Bool) (fr wu : Option ℚ) : State :=
  let s0 : State :=
    { bins := [], maxBins := 0, weighted := false, freeze := 0, warmUp := 0,
      count := 0, cumn := 0, minv := none, maxv := none, tss := 0 }
  let s1 := maxBinsSet uSel s0 (jsOr mb 100)
  let s2 : State := { s1 with weighted := w }
  let s3 : State :=
    { s2 with
      freeze := if jsIsInt (jsOr fr 0) then jsOr fr 0 else 0
      warmUp := if jsIsInt (jsOr wu 0) then jsOr wu 0 else 0 }
  reset s3

/-- The part of `merge` before the bin insertion loop: accumulate count,
min, max, and set the new `maxBins` (compressing if the cap shrank). -/
def mergePre (sel : List Bin → ℕ) (s that : State) (mbArg : Option ℚ) : State :=
  let s1 : State :=
    { s with
      count := s.count + that.count
      minv := match s.minv, that.minv with
        | none, none => none
        | some a, none => some a
        | none, some b => some b
        | some a, some b => some (min a b)
      maxv := match s.maxv, that.maxv with
        | none, none => none
        | some a, none => some a
        | none, some b => some b
        | some a, some b => some (max a b) }
  let minBins := min s.maxBins that.maxBins
  let mbReq := match mbArg with
    | some v => if jsIsInt v then v else minBins
    | none => minBins
  maxBinsSet sel s1 (min mbReq (s.maxBins + that.maxBins))

/-- `merge(that, maxBins)`: scalar bookkeeping, insert all of `that`'s
bins one by one (the RBTree silently rejects an equal-mean duplicate),
then compress. -/
def mergeOp (sel : List Bin → ℕ) (s that : State) (mbArg : Option ℚ) : State :=
  let s2 := mergePre sel s that mbArg
  compressState sel { s2 with bins := that.bins.foldl treeInsert s2.bins }

/-- One pass of `_cumulate`'s loop: assign `cumn = running + count/2` to
each bin, accumulating the running total. -/
def cumulateBins (acc : ℚ) : List Bin → List Bin
  | [] => []
  | b :: t => { b with cumn := acc + b.count / 2 } :: cumulateBins (acc + b.count) t

/-- `_cumulate()`: skip when the freshness marker `_cumn` matches
`_count`; otherwise recompute every bin's `cumn` and overwrite both
`_count` and `_cumn` with the total of the bin counts. -/
def cumulate (s : State) : State :=
  if s.count = s.cumn then s
  else { s with bins := cumulateBins 0 s.bins, count := binSum s.bins, cumn := binSum s.bins }

/-- Scan step of `_bound`: `p` is the last bin seen with mean < x.  When
the scan runs off the end (`x` above every mean), the iterator's
null-cursor `prev()` lands on the maximal bin and `lo === max` makes
`up = lo`. -/
def boundGo (x : ℚ) (p : Bin) : List Bin → Bin × Bin
  | [] => (p, p)
  | b :: t => if x ≤ b.mean then (p, if p.mean = x then p else b) else boundGo x b t

/-- `_bound(x)`: bracketing bins by *mean*.  `lower` is the bin before
the first bin with mean ≥ x (or that first bin itself when it is the
tree minimum); `upper` is `lower` when `lower.mean = x` or `lower` is
the tree maximum, else the next bin. -/
def bound (x : ℚ) : List Bin → Option (Bin × Bin)
  | [] => none
  | b :: t =>
    some (if x ≤ b.mean then (b, if b.mean = x ∨ t.isEmpty then b else t.headD b)
          else boundGo x b t)

/-- Scan step of `_boundCumn`: `p` is the last bin seen with cumn ≤ x.
The `p.mean = x` comparison is the source's `lo.mean === x` — a *mean*
compared against a cumulative count. -/
def boundCumnGo (x : ℚ) (p : Bin) : List Bin → Option Bin × Bin
  | [] => (some p, p)
  | b :: t => if b.cumn > x then (some p, if p.mean = x then p else b) else boundCumnGo x b t

/-- `_boundCumn(x)`: bracketing bins by cumulative count, via
`upperBound({cumn: x})` then `prev`/`next`.  When every bin has cumn > x
the `prev()` returns null (`lower = none`) and the subsequent `next()`
wraps to the minimal bin (`upper`).  The `[]` case is unreachable behind
the `size() === 0` guards of the callers. -/
def boundCumn (x : ℚ) : List Bin → Option Bin × Bin
  | [] => (none, default)
  | b :: t => if b.cumn > x then (none, b) else boundCumnGo x b t

/-- The interpolation step of `_sum`: `base + (m_i + m_b)/2 · (b − p_i)/
(p_{i+1} − p_i)` with `m_b` linearly interpolated between the bracket
counts. -/
def sumInterp (base x : ℚ) (lo up : Bin) : ℚ :=
  let pdiff := up.mean - lo.mean
  let bdiff := x - lo.mean
  let mdiff := up.count - lo.count
  let mb := lo.count + mdiff / pdiff * bdiff
  base + (lo.count + mb) / 2 * (bdiff / pdiff)

/-- `_sum(b)`: the empirical CDF on the count scale.  Returns the
(possibly `null`) value and the post-call state (`_cumulate` may have
refreshed the cumns and overwritten `_count`). -/
def sumOp (s : State) (b : ℚ) : Option ℚ × State :=
  if s.bins.length = 0 then (none, s)
  else if b < jsMin s then (some 0, s)
  else if b ≥ jsMax s then (some s.count, s)
  else
    let s' := cumulate s
    match bound b s'.bins with
    | none => (none, s')
    | some (lo, up) =>
      if b - lo.mean = 0 then (some lo.cumn, s')
      else
        let base := if s'.bins.headD default = lo then lo.count / 2 else lo.cumn
        (some (sumInterp base b lo up), s')

/-- The interpolation factor `z` of `_quantile`: linear when the bracket
counts coincide (`a = 0`), otherwise the positive root of the quadratic
`a z² + 2 m_i z + 2 d = 0`, computed with a real square root. -/
noncomputable def quantileZ (t : ℚ) (lo up : Bin) : ℝ :=
  let d := lo.cumn - t
  let a := up.count - lo.count
  if a = 0 then
    let b := up.cumn - lo.cumn
    ((if b ≠ 0 then (t - lo.cumn) / b else 0 : ℚ) : ℝ)
  else
    (-((2 * lo.count : ℚ) : ℝ) +
        Real.sqrt (((2 * lo.count : ℚ) : ℝ) * ((2 * lo.count : ℚ) : ℝ) -
          4 * ((a : ℚ) : ℝ) * ((2 * d : ℚ) : ℝ))) /
      (2 * ((a : ℚ) : ℝ))

/-- `u_j = p_i + (p_{i+1} − p_i) · z`. -/
noncomputable def quantileVal (t : ℚ) (lo up : Bin) : ℝ :=
  (lo.mean : ℝ) + ((up.mean : ℝ) - (lo.mean : ℝ)) * quantileZ t lo up

/-- `_quantile(q)`: target mass `s = count * q` is computed from the
*pre*-`_cumulate` count; the interpolation then runs on the refreshed
bins.  A null `lower` bracket (target mass below the first bin's cumn)
makes the JavaScript dereference `null.cumn`: modelled as `.error`. -/
noncomputable def quantileOp (s : State) (q : ℚ) : Except Unit (Option ℝ × State) :=
  if s.bins.length = 0 then .ok (none, s)
  else if q ≤ 0 then .ok (s.minv.map (fun m => (m : ℝ)), s)
  else if q ≥ 1 then .ok (s.maxv.map (fun m => (m : ℝ)), s)
  else
    let t := s.count * q
    let s' := cumulate s
    match boundCumn t s'.bins with
    | (none, _) => .error ()
    | (some lo, up) => .ok (some (quantileVal t lo up), s')

/-- `mean()`: `Σ mean·count / count`, `null` on an empty count. -/
def meanOp (s : State) : Option ℚ :=
  if s.count = 0 then none
  else some ((s.bins.map fun b => b.mean * b.count).sum / s.count)

/-- `variance()`: population variance over the bin point masses, `null`
when fewer than two points have been seen. -/
def varianceOp (s : State) : Option ℚ :=
  if s.count < 2 then none
  else
    let m := (s.bins.map fun b => b.mean * b.count).sum / s.count
    some ((s.bins.map fun b => (b.mean - m) ^ 2 * b.count).sum / s.count)

/-- `Number.EPSILON`. -/
def jsEpsilon : ℚ := 1 / 2 ^ 52

/-- `density(b)` with explicit recursion fuel: the only self-calls are at
`b ± 10ε` when `b` sits exactly on the minimal bin's mean, and those
calls cannot recurse again, so fuel 2 (used by `densityOp`) is exact.
`some ⊤` models the `Infinity` returned for a single point mass.  The
recursive results are always finite (`untop' 0` is never the lossy case). -/
def densityGo (s : State) : ℕ → ℚ → Option (WithTop ℚ)
  | 0, _ => none
  | fuel + 1, b =>
    if s.bins.length = 0 then none
    else if b < jsMin s ∨ b > jsMax s then some 0
    else if b = jsMin s ∧ b = jsMax s then some ⊤
    else
      match bound b s.bins with
      | none => none
      | some (lo, up) =>
        if lo.mean = b ∧ up.mean = b then
          let dlo := ((densityGo s fuel (b - jsEpsilon * 10)).getD 0).untop' 0
          let dhi := ((densityGo s fuel (b + jsEpsilon * 10)).getD 0).untop' 0
          some ((dlo + dhi) / 2 : ℚ)
        else
          let pdiff := up.mean - lo.mean
          let bdiff := b - lo.mean
          let mdiff := up.count - lo.count
          let res := (lo.count + mdiff * (bdiff / pdiff)) / pdiff
          some (if res ≥ 0 then (res / s.count : ℚ) else 0)

/-- `density(b)`. -/
def densityOp (s : State) (b : ℚ) : Option (WithTop ℚ) := densityGo s 2 b

/-- `this.count() % 2 === 0` on an exact rational (a non-integer total is
never `=== 0` modulo 2). -/
def jsEven (q : ℚ) : Bool := q.den == 1 && q.num % 2 == 0

/-- First index whose bin mean is ≥ x — the position of the
`lowerBound({mean: x})` iterator (equals `length` when no such bin). -/
def firstIdxGE (x : ℚ) : List Bin → ℕ
  | [] => 0
  | b :: t => if x ≤ b.mean then 0 else 1 + firstIdxGE x t

/-- Index returned by `iter.prev()` for a `lowerBound` iterator standing
at position `k` of a tree with `len` items: the predecessor, or the
maximal item when the cursor is null (`k = len`), or null (`none`) when
there is no predecessor. -/
def iterPrevIdx (k len : ℕ) : Option ℕ :=
  if k = len then (if len = 0 then none else some (len - 1))
  else if k = 0 then none
  else some (k - 1)

/-- The "exact" branch of `median()` (taken when `count() ≤ size()`): it
looks up `lowerBound({mean: count/2})` — the *mean* key is probed with
half the total count.  For an even total it calls the mutating
`combineBins(lower, upper)`, overwriting the lower straddling bin in
place; a null `lower` or `upper` makes the JavaScript dereference throw,
modelled as `.error`. -/
def medianExact (s : State) : Except Unit (ℚ × State) :=
  let k := firstIdxGE (s.count / 2) s.bins
  if jsEven s.count then
    match s.bins[k]?, iterPrevIdx k s.bins.length with
    | some up, some j =>
      let comb := combineBins (s.bins.getD j default) up
      .ok (comb.mean, { s with bins := s.bins.set j comb })
    | _, _ => .error ()
  else
    match iterPrevIdx k s.bins.length with
    | none => .error ()
    | some j => .ok ((s.bins.getD j default).mean, s)

/-- `median()`: `quantile(0.5)` once observations outnumber bins,
otherwise the exact branch. -/
noncomputable def medianOp (s : State) : Except Unit (Option ℝ × State) :=
  if s.count > (s.bins.length : ℚ) then quantileOp s (1 / 2)
  else (medianExact s).map fun p => (some ((p.1 : ℚ) : ℝ), p.2)

/-- The serialized form produced by `toJSON`: the ordered bin array as
`(mean, count, tss)` triples plus every own scalar field except the
cumn freshness marker `_cumn`. -/
structure Snapshot where
  bins : List (ℚ × ℚ × ℚ)
  maxBins : ℚ
  weighted : Bool
  freeze : ℚ
  warmUp : ℚ
  count : ℚ
  minv : Option ℚ
  maxv : Option ℚ
  tss : ℚ
deriving DecidableEq, Repr

/-- `toArray()`: the bins as `(mean, count, tss)` triples in mean order. -/
def toArray (s : State) : List (ℚ × ℚ × ℚ) := s.bins.map fun b => (b.mean, b.count, b.tss)

/-- `toJSON()`. -/
def toSnapshot (s : State) : Snapshot :=
  { bins := toArray s, maxBins := s.maxBins, weighted := s.weighted, freeze := s.freeze,
    warmUp := s.warmUp, count := s.count, minv := s.minv, maxv := s.maxv, tss := s.tss }

/-- `fromJSON(json)`: a fresh sketch (so `_cumn = 0`), all scalar fields
copied from the snapshot, and the bin array re-inserted one by one into
the empty tree (the restored bins have no `cumn` property; we use 0). -/
def fromSnapshot (j : Snapshot) : State :=
  { bins := j.bins.foldl (fun l p => treeInsert l ⟨p.1, p.2.1, p.2.2, 0⟩) []
    maxBins := j.maxBins, weighted := j.weighted, freeze := j.freeze, warmUp := j.warmUp
    count := j.count, cumn := 0, minv := j.minv, maxv := j.maxv, tss := j.tss }

instance {ε α : Type _} [DecidableEq ε] [DecidableEq α] : DecidableEq (Except ε α)
  | .ok x, .ok y => decidable_of_iff (x = y) (by simp)
  | .error x, .error y => decidable_of_iff (x = y) (by simp)
  | .ok _, .error _ => .isFalse fun h => Except.noConfusion h
  | .error _, .ok _ => .isFalse fun h => Except.noConfusion h

/-- Bins strictly sorted by mean — the RBTree ordering invariant. -/
def SortedBins (l : List Bin) : Prop := l.Chain' fun a b => a.mean < b.mean

instance instSortedBinsDec : ∀ (l : List Bin), Decidable (SortedBins l)
  | [] => .isTrue List.chain'_nil
  | [b] => .isTrue (List.chain'_singleton b)
  | a :: b :: t =>
    haveI := instSortedBinsDec (b :: t)
    decidable_of_iff (a.mean < b.mean ∧ SortedBins (b :: t))
      (@List.chain'_cons Bin (fun x y => x.mean < y.mean) a b t).symm

/-- All bin counts positive — true of every reachable sketch fed with
positive weights. -/
def PosCounts (l : List Bin) : Prop := ∀ b ∈ l, 0 < b.count

instance (l : List Bin) : Decidable (PosCounts l) := by
  unfold PosCounts; exact List.decidableBAll _ l

/-- Well-formedness of the bin store. -/
def WF (s : State) : Prop := SortedBins s.bins ∧ PosCounts s.bins

instance (s : State) : Decidable (WF s) := by unfold WF; infer_instance

/-- A valid pair-selection oracle always points at an adjacent pair. -/
def ValidSel (sel : List Bin → ℕ) : Prop :=
  ∀ l : List Bin, 2 ≤ l.length → sel l + 1 < l.length

/-- `count()` equals the sum of the bin counts. -/
def Inv (s : State) : Prop := s.count = binSum s.bins

/-- Adjacent bins carry the cumulative-count relation `_cumulate`
establishes: `b.cumn = a.cumn + (a.count + b.count)/2`. -/
def CumLinked (l : List Bin) : Prop :=
  l.Chain' fun a b => b.cumn = a.cumn + (a.count + b.count) / 2

/-- Mean of the largest bin (`0` for an empty store). -/
def lastMean (l : List Bin) : ℚ := (l.getLast?.getD default).mean

/-- Cumn of the largest bin (`0` for an empty store). -/
def lastCumn (l : List Bin) : ℚ := (l.getLast?.getD default).cumn

/-- The value `_sum` produces for a bracket `(lo, up)` once the base has
been normalised to `lo.cumn` (for the minimal bin the source's
`lower.count/2` equals the freshly cumulated `lo.cumn`). -/
def sumValC (x : ℚ) (lo up : Bin) : ℚ :=
  if x - lo.mean = 0 then lo.cumn else sumInterp lo.cumn x lo up

/-- `_sum`'s value along the `boundGo` scan from previous bin `p`. -/
def sGoVal (x : ℚ) (p : Bin) (t : List Bin) : ℚ :=
  sumValC x (boundGo x p t).1 (boundGo x p t).2

/-- `_quantile`'s value along the `boundCumnGo` scan from previous bin
`p` (the scan always returns a `some` lower bracket). -/
noncomputable def qGoVal (x : ℚ) (p : Bin) (t : List Bin) : ℝ :=
  quantileVal x ((boundCumnGo x p t).1.getD default) (boundCumnGo x p t).2

instance (s : State) : Decidable (Inv s) := by unfold Inv; infer_instance

/-- A mutating sketch operation: a single-point `push(x, w)` or a
`merge(other, maxBins?)`. -/
inductive Op where
  | push (x w : ℚ)
  | mergeWith (other : State) (mbArg : Option ℚ)

/-- Run one operation. -/
def runOp (sel : List Bin → ℕ) (s : State) : Op → State
  | .push x w => pushOne sel s x w
  | .mergeWith o mb => mergeOp sel s o mb

/-- Run a sequence of operations. -/
def runOps (sel : List Bin → ℕ) (s : State) (ops : List Op) : State :=
  ops.foldl (runOp sel) s

/-- Side conditions under which an operation keeps the count invariant:
pushes carry positive weight; a merged sketch itself satisfies the
invariant, is well formed with nonnegative count, and supplies no bin
mean already present in the receiver at insertion time (the state
produced by `mergePre`) — otherwise the RBTree drops the bin. -/
def OkOp (sel : List Bin → ℕ) (s : State) : Op → Prop
  | .push _ w => 0 < w
  | .mergeWith o mb => Inv o ∧ 0 ≤ o.count ∧ SortedBins o.bins ∧ PosCounts o.bins ∧
      (∀ b ∈ o.bins, ∀ b' ∈ (mergePre sel s o mb).bins, b.mean ≠ b'.mean)

/-- All operations of a run satisfy their side conditions at the state
where they execute. -/
def OkRun (sel : List Bin → ℕ) (s : State) : List Op → Prop
  | [] => True
  | op :: rest => OkOp sel s op ∧ OkRun sel (runOp sel s op) rest

instance (sel : List Bin → ℕ) (s : State) (op : Op) : Decidable (OkOp sel s op) := by
  cases op with
  | push x w => exact (inferInstance : Decidable (0 < w))
  | mergeWith o mb =>
    exact (inferInstance : Decidable (Inv o ∧ 0 ≤ o.count ∧ SortedBins o.bins ∧
      PosCounts o.bins ∧ (∀ b ∈ o.bins, ∀ b' ∈ (mergePre sel s o mb).bins, b.mean ≠ b'.mean)))

/-- Decision procedure for `OkRun` (structural recursion over the run). -/
def okRunDec (sel : List Bin → ℕ) : ∀ (ops : List Op) (s : State), Decidable (OkRun sel s ops)
  | [], _ => .isTrue trivial
  | op :: rest, s => by
    haveI := okRunDec sel rest (runOp sel s op)
    exact (inferInstance : Decidable (OkOp sel s op ∧ OkRun sel (runOp sel s op) rest))

instance (sel : List Bin → ℕ) (s : State) (ops : List Op) : Decidable (OkRun sel s ops) :=
  okRunDec sel ops s

/-! ### Concrete sketches used as test vectors -/

/-- `new StreamHist()`. -/
def emptyHist : State := mkHist none false none none

/-- `new StreamHist().push([10, 20, 30])`. -/
def hist3 : State := pushList uSel emptyHist [10, 20, 30] 1

/-- `new StreamHist().push([0, 1, ..., 14])` — 15 points, one bin each. -/
def hist15 : State :=
  pushList uSel emptyHist [0, 1, 2, 3, 4, 5, 6, 7, 8, 9, 10, 11, 12, 13, 14] 1

/-- `hist15` after `push(15)`. -/
def hist16 : State := pushOne uSel hist15 15 1

/-- `new StreamHist().push([0, 1, 2, 3])`. -/
def hist4 : State := pushList uSel emptyHist [0, 1, 2, 3] 1

/-- `new StreamHist().push(5)`. -/
def hist5 : State := pushOne uSel emptyHist 5 1

/-- `new StreamHist(null, null, null, 2).push([5, 5])`: the second push
reaches `warmUp = 2` and resets the single bin's count to 1 while
`_count` stays 2. -/
def warm2 : State := pushList uSel (mkHist none false none (some 2)) [5, 5] 1

/-- `new StreamHist(null, null, null, 3).push([5, 5, 9])`: after the
warm-up reset, `count() = 3` but the bins hold total weight 2, and the
cumn cache is stale. -/
def warm3 : State := pushList uSel (mkHist none false none (some 3)) [5, 5, 9] 1

/-- `new StreamHist().push([2, 2, 5, 5])`: two bins of count 2. -/
def quadHist : State := pushList uSel emptyHist [2, 2, 5, 5] 1

/-- `new StreamHist(2).push([0, 10, 30, 20, 15])`: compresses down to the
two bins `{mean 25/3, count 3}`, `{mean 25, count 2}` with `min() = 0`
strictly below the first bin mean. -/
def skewHist : State := pushList uSel (mkHist (some 2) false none none) [0, 10, 30, 20, 15] 1

/-! ## Theorems -/

/-! ### Helper lemmas -/

lemma maxBinsSet_maxBins (sel : List Bin → ℕ) (s : State) (v : ℚ) :
    (maxBinsSet sel s v).maxBins = if jsIsInt v then v else 100 := by
  unfold maxBinsSet compressState
  dsimp only
  split <;> split <;> rfl

lemma mergePairAt_length (i : ℕ) (l : List Bin) (h : i + 1 < l.length) :
    (mergePairAt i l).length + 1 = l.length := by
  induction i generalizing l with
  | zero =>
    cases l with
    | nil => simp at h
    | cons a t =>
      cases t with
      | nil => simp at h
      | cons b t' => simp [mergePairAt]
  | succ n ih =>
    cases l with
    | nil => simp at h
    | cons a t =>
      cases t with
      | nil => simp at h
      | cons b t' =>
        have h2 := ih (b :: t') (by simpa using h)
        simp only [mergePairAt, List.length_cons] at h2 ⊢
        omega

lemma adjCosts_cons_length (a : Bin) (t : List Bin) : (adjCosts (a :: t)).length = t.length := by
  induction t generalizing a with
  | nil => rfl
  | cons b t' ih => simp [adjCosts, ih]

lemma firstMinIdxGo_lt (N : ℕ) :
    ∀ (cs : List ℚ) (i : ℕ) (bv : ℚ) (best : ℕ),
      best < N → i + cs.length ≤ N → firstMinIdxGo cs i bv best < N := by
  intro cs
  induction cs with
  | nil => intro i bv best hb _; simpa [firstMinIdxGo] using hb
  | cons c cs ih =>
    intro i bv best hb hi
    simp only [firstMinIdxGo, List.length_cons] at hi ⊢
    split
    · exact ih (i + 1) c i (by omega) (by omega)
    · exact ih (i + 1) bv best hb (by omega)

lemma uSel_valid : ValidSel uSel := by
  intro l hl
  match l, hl with
  | a :: b :: t, _ =>
    show uSel (a :: b :: t) + 1 < t.length + 2
    unfold uSel
    rw [show adjCosts (a :: b :: t) = diffBinsU a b :: adjCosts (b :: t) from rfl]
    dsimp only
    have h1 : firstMinIdxGo (adjCosts (b :: t)) 1 (diffBinsU a b) 0 < t.length + 1 := by
      apply firstMinIdxGo_lt
      · omega
      · rw [adjCosts_cons_length]; omega
    omega

lemma pickSel_valid (w : Bool) (sel : List Bin → ℕ) (h : ValidSel sel) :
    ValidSel (pickSel w sel) := by
  intro l hl
  unfold pickSel
  split
  · exact h l hl
  · exact uSel_valid l hl

lemma compressGo_length (w : Bool) (sel : List Bin → ℕ) (mb : ℚ) (hsel : ValidSel sel) :
    ∀ (fuel : ℕ) (l : List Bin), l.length ≤ fuel + 1 →
      (compressGo w sel mb fuel l).length ≤ 1 ∨
        ((compressGo w sel mb fuel l).length : ℚ) ≤ mb := by
  intro fuel
  induction fuel with
  | zero => intro l h; left; simpa [compressGo] using h
  | succ n ih =>
    intro l h
    by_cases hg : l.length ≤ 1 ∨ (l.length : ℚ) ≤ mb
    · rw [compressGo, if_pos hg]; exact hg
    · rw [compressGo, if_neg hg]
      push_neg at hg
      have hv := pickSel_valid w sel hsel l (by omega)
      have hlen := mergePairAt_length _ _ hv
      exact ih _ (by omega)

lemma compress_length_le (w : Bool) (sel : List Bin → ℕ) (mb : ℚ) (hsel : ValidSel sel)
    (hmb : 1 ≤ mb) (l : List Bin) : ((compress w sel mb l).length : ℚ) ≤ mb := by
  rcases compressGo_length w sel mb hsel l.length l (Nat.le_succ _) with h | h
  · have h' : ((compress w sel mb l).length : ℚ) ≤ 1 := by exact_mod_cast h
    linarith
  · exact h

lemma insertStep_maxBins (s : State) (x c : ℚ) : (insertStep s x c).maxBins = s.maxBins := by
  unfold insertStep
  dsimp only
  split
  · rfl
  · split <;> rfl

lemma warmUpStep_maxBins (s : State) : (warmUpStep s).maxBins = s.maxBins := by
  unfold warmUpStep; split <;> rfl

lemma warmUpStep_length (s : State) : (warmUpStep s).bins.length = s.bins.length := by
  unfold warmUpStep; split <;> simp

lemma pushOne_maxBins (sel : List Bin → ℕ) (s : State) (x c : ℚ) :
    (pushOne sel s x c).maxBins = s.maxBins :=
  calc (pushOne sel s x c).maxBins
      = (compressState sel (insertStep s x c)).maxBins := warmUpStep_maxBins _
    _ = (insertStep s x c).maxBins := rfl
    _ = s.maxBins := insertStep_maxBins s x c

lemma exceptMap_snd (e : Except Unit (ℚ × State)) :
    ((e.map fun p => ((some ((p.1 : ℚ) : ℝ)), p.2)).toOption.map Prod.snd) =
      e.toOption.map Prod.snd := by
  cases e <;> rfl

/-! ### Claim theorems -/

/-- C2: on an empty sketch, `quantile`, `sum`, `density`, `mean` and
`variance` all return the null sentinel without raising — but `median`
does *not*: its exact branch dereferences a null bracket
(`combineBins(null, null)`) and throws a `TypeError`, modelled here as
`.error ()`.  This evaluates the code on the failing input class. -/
theorem c2_empty_queries (s : State) (q x y : ℚ)
    (hb : s.bins = []) (hc : s.count = 0) :
    quantileOp s q = .ok (none, s) ∧ sumOp s x = (none, s) ∧
    densityOp s y = none ∧ meanOp s = none ∧ varianceOp s = none ∧
    medianOp s = .error () := by
  refine ⟨?_, ?_, ?_, ?_, ?_, ?_⟩
  · simp [quantileOp, hb]
  · simp [sumOp, hb]
  · simp [densityOp, densityGo, hb]
  · simp [meanOp, hc]
  · simp [varianceOp, hc]
  · simp [medianOp, medianExact, hb, hc, firstIdxGE, iterPrevIdx, jsEven, Except.map]

/-- Witness for `c2_empty_queries` at the literal empty sketch. -/
theorem c2_empty_queries_witness :
    quantileOp emptyHist (1 / 3) = .ok (none, emptyHist) ∧
    sumOp emptyHist 7 = (none, emptyHist) ∧
    densityOp emptyHist 7 = none ∧ meanOp emptyHist = none ∧
    varianceOp emptyHist = none ∧ medianOp emptyHist = .error () :=
  c2_empty_queries emptyHist (1 / 3) 7 7 (by with_unfolding_all decide)
    (by with_unfolding_all decide)

lemma mergePairAt_length_ge : ∀ (i : ℕ) (l : List Bin),
    l.length ≤ (mergePairAt i l).length + 1
  | 0, a :: b :: t => by
    show (a :: b :: t).length ≤ (combineBins a b :: t).length + 1
    simp
  | n + 1, a :: b :: t => by
    show (a :: b :: t).length ≤ (a :: mergePairAt n (b :: t)).length + 1
    have h2 := mergePairAt_length_ge n (b :: t)
    simp only [List.length_cons] at h2 ⊢
    omega
  | 0, [] => Nat.le_succ _
  | 0, [_] => Nat.le_succ _
  | _ + 1, [] => Nat.le_succ _
  | _ + 1, [_] => Nat.le_succ _

lemma compressGoE_none (w : Bool) (sel : List Bin → ℕ) (mb : ℚ) (hmb : mb < 1) :
    ∀ (fuel : ℕ) (l : List Bin), 1 ≤ l.length →
      compressGoE w sel mb fuel false l = none
  | 0, l, hl => by
    show (if (l.length : ℚ) ≤ mb then some (Except.ok l) else none) = none
    have h1 : (1 : ℚ) ≤ (l.length : ℚ) := by exact_mod_cast hl
    rw [if_neg (not_le.mpr (lt_of_lt_of_le hmb h1))]
  | fuel + 1, l, hl => by
    show (if (l.length : ℚ) ≤ mb then some (Except.ok l)
        else if l.length ≤ 1 then (if false then some (Except.error ()) else none)
        else compressGoE w sel mb fuel false (mergePairAt (pickSel w sel l) l)) = none
    have h1 : (1 : ℚ) ≤ (l.length : ℚ) := by exact_mod_cast hl
    rw [if_neg (not_le.mpr (lt_of_lt_of_le hmb h1))]
    by_cases h2 : l.length ≤ 1
    · rw [if_pos h2]
      rfl
    · rw [if_neg h2]
      have h3 := mergePairAt_length_ge (pickSel w sel l) l
      exact compressGoE_none w sel mb hmb fuel
        (mergePairAt (pickSel w sel l) l) (by omega)

lemma compressGoE_ok (w : Bool) (sel : List Bin → ℕ) (hsel : ValidSel sel) (mb : ℚ)
    (hmb : 1 ≤ mb) :
    ∀ (fuel : ℕ) (fresh : Bool) (l : List Bin), l.length ≤ fuel + 1 →
      ∃ l', compressGoE w sel mb fuel fresh l = some (Except.ok l')
  | 0, _, l, hfl => by
    have h1 : (l.length : ℚ) ≤ mb := by
      have h0 : l.length ≤ 1 := by omega
      calc (l.length : ℚ) ≤ 1 := by exact_mod_cast h0
        _ ≤ mb := hmb
    refine ⟨l, ?_⟩
    show (if (l.length : ℚ) ≤ mb then some (Except.ok l) else none) = some (Except.ok l)
    rw [if_pos h1]
  | fuel + 1, fresh, l, hfl => by
    by_cases hle : (l.length : ℚ) ≤ mb
    · refine ⟨l, ?_⟩
      show (if (l.length : ℚ) ≤ mb then some (Except.ok l)
          else if l.length ≤ 1 then (if fresh then some (Except.error ()) else none)
          else compressGoE w sel mb fuel false (mergePairAt (pickSel w sel l) l)) =
        some (Except.ok l)
      rw [if_pos hle]
    · have hgt : mb < (l.length : ℚ) := not_le.mp hle
      have h2 : ¬ l.length ≤ 1 := by
        intro h
        have h1 : (l.length : ℚ) ≤ 1 := by exact_mod_cast h
        linarith
      have hv := pickSel_valid w sel hsel l (by omega)
      have hlen := mergePairAt_length (pickSel w sel l) l hv
      obtain ⟨l', hl'⟩ := compressGoE_ok w sel hsel mb hmb fuel false
        (mergePairAt (pickSel w sel l) l) (by omega)
      refine ⟨l', ?_⟩
      show (if (l.length : ℚ) ≤ mb then some (Except.ok l)
          else if l.length ≤ 1 then (if fresh then some (Except.error ()) else none)
          else compressGoE w sel mb fuel false (mergePairAt (pickSel w sel l) l)) =
        some (Except.ok l')
      rw [if_neg hle, if_neg h2]
      exact hl'

lemma maxBinsSetE_eval (sel : List Bin → ℕ) (s : State) (v mb : ℚ)
    (hmb : (if jsIsInt v then v else 100) = mb) :
    maxBinsSetE sel s v =
      (if (s.bins.length : ℚ) > mb then
        match compressE s.weighted sel mb s.bins with
        | none => none
        | some (Except.error e) => some (Except.error e)
        | some (Except.ok l) => some (Except.ok { s with maxBins := mb, bins := l })
      else some (Except.ok { s with maxBins := mb })) := by
  rw [maxBinsSetE]
  dsimp only
  rw [hmb]

/-- C9, counterexample: `maxBins(-5)` passes the `Number.isInteger` check,
so no fallback to 100 happens: the cap −5 is stored and `_compress` then
runs with its loop condition permanently true.  On the empty sketch the
first iteration dereferences the undefined pair (TypeError, `.error`);
on the three-bin sketch the loop merges down to one bin and then
re-merges the stale pair forever (`none`).  The accessor call never
completes normally, let alone with the claimed default 100. -/
theorem c9_counterexample :
    jsIsInt (-5) = true ∧
    maxBinsSetE uSel emptyHist (-5) = some (Except.error ()) ∧
    maxBinsSetE uSel hist3 (-5) = none := by
  refine ⟨by with_unfolding_all decide, by with_unfolding_all decide,
    by with_unfolding_all decide⟩

/-- C9, amended: a *non-integer* `maxBins` argument falls back to 100 and
the accessor completes normally (for any valid selection oracle); an
integer cap of at least 1 is stored as given and the accessor also
completes; an integer cap below 1 on a sketch that exceeds it is stored,
but the triggered `_compress` call throws a `TypeError` (fewer than two
bins) or never returns (otherwise); an integer cap the sketch does not
exceed is stored with no compression; and the constructor's falsy-zero
and omitted arguments default to 100. -/
theorem c9_maxBins_fallback :
    (∀ sel : List Bin → ℕ, ValidSel sel → ∀ (s : State) (v : ℚ), jsIsInt v = false →
      ∃ s', maxBinsSetE sel s v = some (Except.ok s') ∧ s'.maxBins = 100) ∧
    (∀ sel : List Bin → ℕ, ValidSel sel → ∀ (s : State) (v : ℚ), jsIsInt v = true → 1 ≤ v →
      ∃ s', maxBinsSetE sel s v = some (Except.ok s') ∧ s'.maxBins = v) ∧
    (∀ (sel : List Bin → ℕ) (s : State) (v : ℚ), jsIsInt v = true → v < 1 →
      (s.bins.length : ℚ) > v →
      maxBinsSetE sel s v = (if s.bins.length ≤ 1 then some (Except.error ()) else none)) ∧
    (∀ (sel : List Bin → ℕ) (s : State) (v : ℚ), jsIsInt v = true →
      (s.bins.length : ℚ) ≤ v →
      maxBinsSetE sel s v = some (Except.ok { s with maxBins := v })) ∧
    (∀ (w : Bool) (fr wu : Option ℚ),
      (mkHist none w fr wu).maxBins = 100 ∧ (mkHist (some 0) w fr wu).maxBins = 100) := by
  refine ⟨fun sel hsel s v hv => ?_, fun sel hsel s v hv hv1 => ?_,
    fun sel s v hv hv1 hgt => ?_, fun sel s v hv hle => ?_, fun w fr wu => ?_⟩
  · have hmb : (if jsIsInt v then v else 100) = (100 : ℚ) := by rw [hv]; rfl
    rw [maxBinsSetE_eval sel s v 100 hmb]
    by_cases hgt : (s.bins.length : ℚ) > 100
    · rw [if_pos hgt]
      obtain ⟨l', hl'⟩ := compressGoE_ok s.weighted sel hsel 100 (by norm_num)
        (s.bins.length + 1) true s.bins (by omega)
      rw [show compressE s.weighted sel 100 s.bins =
        compressGoE s.weighted sel 100 (s.bins.length + 1) true s.bins from rfl, hl']
      exact ⟨{ s with maxBins := 100, bins := l' }, rfl, rfl⟩
    · rw [if_neg hgt]
      exact ⟨{ s with maxBins := 100 }, rfl, rfl⟩
  · have hmb : (if jsIsInt v then v else 100) = v := by rw [hv]; rfl
    rw [maxBinsSetE_eval sel s v v hmb]
    by_cases hgt : (s.bins.length : ℚ) > v
    · rw [if_pos hgt]
      obtain ⟨l', hl'⟩ := compressGoE_ok s.weighted sel hsel v hv1
        (s.bins.length + 1) true s.bins (by omega)
      rw [show compressE s.weighted sel v s.bins =
        compressGoE s.weighted sel v (s.bins.length + 1) true s.bins from rfl, hl']
      exact ⟨{ s with maxBins := v, bins := l' }, rfl, rfl⟩
    · rw [if_neg hgt]
      exact ⟨{ s with maxBins := v }, rfl, rfl⟩
  · have hmb : (if jsIsInt v then v else 100) = v := by rw [hv]; rfl
    rw [maxBinsSetE_eval sel s v v hmb, if_pos hgt]
    by_cases h1 : s.bins.length ≤ 1
    · have hce : compressE s.weighted sel v s.bins = some (Except.error ()) := by
        show compressGoE s.weighted sel v (s.bins.length + 1) true s.bins = _
        show (if (s.bins.length : ℚ) ≤ v then some (Except.ok s.bins)
            else if s.bins.length ≤ 1 then (if true then some (Except.error ()) else none)
            else compressGoE s.weighted sel v s.bins.length false
              (mergePairAt (pickSel s.weighted sel s.bins) s.bins)) = _
        rw [if_neg (not_le.mpr hgt), if_pos h1]
        rfl
      rw [hce, if_pos h1]
    · have hce : compressE s.weighted sel v s.bins = none := by
        show compressGoE s.weighted sel v (s.bins.length + 1) true s.bins = none
        show (if (s.bins.length : ℚ) ≤ v then some (Except.ok s.bins)
            else if s.bins.length ≤ 1 then (if true then some (Except.error ()) else none)
            else compressGoE s.weighted sel v s.bins.length false
              (mergePairAt (pickSel s.weighted sel s.bins) s.bins)) = none
        rw [if_neg (not_le.mpr hgt), if_neg h1]
        have h3 := mergePairAt_length_ge (pickSel s.weighted sel s.bins) s.bins
        exact compressGoE_none s.weighted sel v hv1 s.bins.length
          (mergePairAt (pickSel s.weighted sel s.bins) s.bins) (by omega)
      rw [hce, if_neg h1]
  · have hmb : (if jsIsInt v then v else 100) = v := by rw [hv]; rfl
    rw [maxBinsSetE_eval sel s v v hmb, if_neg (not_lt.mpr hle)]
  · exact ⟨by with_unfolding_all rfl, by with_unfolding_all rfl⟩

/-- Witness for `c9_maxBins_fallback`: the non-integer `5/2` falls back
to 100 on the empty sketch, and the integer cap 7 is stored on the
three-bin sketch with no compression. -/
theorem c9_maxBins_fallback_witness :
    (∃ s', maxBinsSetE uSel emptyHist (5 / 2) = some (.ok s') ∧ s'.maxBins = 100) ∧
    maxBinsSetE uSel hist3 7 = some (.ok { hist3 with maxBins := 7 }) :=
  ⟨c9_maxBins_fallback.1 uSel uSel_valid emptyHist (5 / 2) (by with_unfolding_all decide),
    c9_maxBins_fallback.2.2.2.1 uSel hist3 7 (by with_unfolding_all decide)
      (by with_unfolding_all decide)⟩

/-- C5: evaluation at the failing input.  Merging two sketches that each
hold the single bin `{mean 5, count 1}` inserts nothing: the RBTree
rejects the equal-mean bin, so the post-insertion (and final) bin store
has one bin of count 1 while `count()` was advanced to 2 — `other`'s bin
is silently dropped, not unioned. -/
theorem c5_merge_drops_equal_mean_bin :
    (mergeOp uSel hist5 hist5 none).bins.map Bin.mean = [5] ∧
    (mergeOp uSel hist5 hist5 none).count = 2 ∧
    binSum (mergeOp uSel hist5 hist5 none).bins = 1 := by with_unfolding_all decide

/-- C6: for a sketch constructed with a positive integer `maxBins`, after
any sequence of pushes `size() ≤ maxBins()` holds.  The pair-selection
oracle `sel` (used only in gap-weighted mode) is arbitrary but must pick
adjacent pairs, which the source's scan always does; `uSel` is the exact
unweighted scan. -/
theorem c6_size_le_maxBins (sel : List Bin → ℕ) (hsel : ValidSel sel)
    (mb : ℚ) (hmb : 1 ≤ mb) (hint : jsIsInt mb = true)
    (w : Bool) (fr wu : Option ℚ) (ops : List (ℚ × ℚ)) :
    (((ops.foldl (fun s p => pushOne sel s p.1 p.2) (mkHist (some mb) w fr wu)).bins.length : ℚ) ≤
      (ops.foldl (fun s p => pushOne sel s p.1 p.2) (mkHist (some mb) w fr wu)).maxBins) := by
  have hne : mb ≠ 0 := by intro h; rw [h] at hmb; norm_num at hmb
  have hbase2 : (mkHist (some mb) w fr wu).maxBins = mb := by
    show (maxBinsSet uSel _ (jsOr (some mb) 100)).maxBins = mb
    rw [maxBinsSet_maxBins]
    simp [jsOr, hne, hint]
  have key : ∀ (ops : List (ℚ × ℚ)) (s : State),
      ((s.bins.length : ℚ) ≤ s.maxBins) → 1 ≤ s.maxBins →
      (((ops.foldl (fun s p => pushOne sel s p.1 p.2) s).bins.length : ℚ) ≤
          (ops.foldl (fun s p => pushOne sel s p.1 p.2) s).maxBins) := by
    intro ops
    induction ops with
    | nil => intro s h1 _; exact h1
    | cons p rest ih =>
      intro s h1 h2
      simp only [List.foldl_cons]
      apply ih
      · have hmx : (insertStep s p.1 p.2).maxBins = s.maxBins := insertStep_maxBins s p.1 p.2
        have hl : ((pushOne sel s p.1 p.2).bins.length : ℚ) =
            ((compress (insertStep s p.1 p.2).weighted sel (insertStep s p.1 p.2).maxBins
              (insertStep s p.1 p.2).bins).length : ℚ) := by
          rw [show (pushOne sel s p.1 p.2).bins.length =
            (compressState sel (insertStep s p.1 p.2)).bins.length from warmUpStep_length _]
          rfl
        rw [pushOne_maxBins, hl, hmx]
        exact compress_length_le _ sel s.maxBins hsel h2 _
      · rw [pushOne_maxBins]; exact h2
  apply key
  · rw [hbase2]
    show ((List.length [] : ℕ) : ℚ) ≤ mb
    simpa using le_trans zero_le_one hmb
  · rw [hbase2]; exact hmb

/-- Witness for `c6_size_le_maxBins`: cap 2, four unit pushes. -/
theorem c6_size_le_maxBins_witness :
    ((([(0, 1), (1, 1), (2, 1), (3, 1)] :
        List (ℚ × ℚ)).foldl (fun s p => pushOne uSel s p.1 p.2)
          (mkHist (some 2) false none none)).bins.length : ℚ) ≤
      (([(0, 1), (1, 1), (2, 1), (3, 1)] :
        List (ℚ × ℚ)).foldl (fun s p => pushOne uSel s p.1 p.2)
          (mkHist (some 2) false none none)).maxBins :=
  c6_size_le_maxBins uSel uSel_valid 2 (by norm_num) (by with_unfolding_all decide)
    false none none [(0, 1), (1, 1), (2, 1), (3, 1)]

set_option maxRecDepth 40000 in
/-- C3: evaluation of `median()`'s exact branch.  On `push([10, 20, 30])`
(three points, each its own bin, count = size = 3) the claim's
rank-based exact median is 20, but the code probes `lowerBound({mean:
count/2})` — the *mean* key 1.5 — finds the first bin, and then
dereferences the null `iter.prev()`, throwing.  On the spec's own test
vectors `0..14` and then `15`, whose bin means happen to coincide with
their ranks, the branch does return 7 and 7.5. -/
theorem c3_median_eval :
    medianOp hist3 = .error () ∧
    medianOp hist15 = .ok (some (7 : ℝ), hist15) ∧
    (∃ s', medianOp hist16 = .ok (some ((15 : ℝ) / 2), s')) := by
  have hc3 : ¬ (hist3.count > (hist3.bins.length : ℚ)) := by with_unfolding_all decide
  have he3 : medianExact hist3 = .error () := by with_unfolding_all decide
  have hc15 : ¬ (hist15.count > (hist15.bins.length : ℚ)) := by with_unfolding_all decide
  have he15 : medianExact hist15 = .ok (7, hist15) := by with_unfolding_all decide
  have hc16 : ¬ (hist16.count > (hist16.bins.length : ℚ)) := by with_unfolding_all decide
  have he16 : medianExact hist16 =
      .ok (15 / 2, { hist16 with
        bins := (hist16.bins.set 7
          (combineBins (hist16.bins.getD 7 default) (hist16.bins.getD 8 default))) }) := by
    with_unfolding_all decide
  refine ⟨?_, ?_, ?_⟩
  · simp [medianOp, hc3, he3, Except.map]
  · simp [medianOp, hc15, he15, Except.map]
  · refine ⟨{ hist16 with bins := (hist16.bins.set 7
      (combineBins (hist16.bins.getD 7 default) (hist16.bins.getD 8 default))) }, ?_⟩
    simp [medianOp, hc16, he16, Except.map]

/-- C4, counterexample: on `push([0, 1, 2, 3])` (count = size = 4, even),
`median()` does *not* leave the sketch unchanged: the post-call state
differs from the pre-call state (the lower straddling bin was combined
in place). -/
theorem c4_counterexample :
    (medianOp hist4).toOption.map Prod.snd ≠ some hist4 := by
  have hc : ¬ (hist4.count > (hist4.bins.length : ℚ)) := by with_unfolding_all decide
  have hne : (medianExact hist4).toOption.map Prod.snd ≠ some hist4 := by
    with_unfolding_all decide
  rw [medianOp, if_neg hc, exceptMap_snd]
  exact hne

/-- C4, amended: for a well-formed sketch with even `count() ≤ size()`
whose straddling lookup finds both bins, `median()` returns the combined
mean but *mutates* the sketch: the lower straddling bin is overwritten by
`combineBins(lower, upper)` (the upper bin stays), so the bin store
changes, while `count`, `min` and `max` are untouched. -/
theorem c4_median_even_mutates (s : State)
    (hpos : PosCounts s.bins)
    (hcs : ¬ s.count > (s.bins.length : ℚ)) (he : jsEven s.count = true)
    (hk1 : 1 ≤ firstIdxGE (s.count / 2) s.bins)
    (hk2 : firstIdxGE (s.count / 2) s.bins < s.bins.length) :
    ∃ v s', medianOp s = .ok (v, s') ∧
      s'.count = s.count ∧ s'.minv = s.minv ∧ s'.maxv = s.maxv ∧
      s'.bins = s.bins.set (firstIdxGE (s.count / 2) s.bins - 1)
        (combineBins (s.bins.getD (firstIdxGE (s.count / 2) s.bins - 1) default)
          (s.bins.getD (firstIdxGE (s.count / 2) s.bins) default)) ∧
      s'.bins ≠ s.bins := by
  set k := firstIdxGE (s.count / 2) s.bins with hk
  have hup : s.bins[k]? = some (s.bins.getD k default) := by
    rw [List.getElem?_eq_getElem hk2, List.getD_eq_getElem _ _ hk2]
  have hprev : iterPrevIdx k s.bins.length = some (k - 1) := by
    unfold iterPrevIdx
    rw [if_neg (by omega), if_neg (by omega)]
  have hex : medianExact s = .ok ((combineBins (s.bins.getD (k - 1) default)
      (s.bins.getD k default)).mean,
      { s with bins := s.bins.set (k - 1) (combineBins (s.bins.getD (k - 1) default)
        (s.bins.getD k default)) }) := by
    unfold medianExact
    rw [← hk]
    rw [if_pos he, hup, hprev]
  refine ⟨some ((combineBins (s.bins.getD (k - 1) default) (s.bins.getD k default)).mean : ℝ),
    { s with bins := (s.bins.set (k - 1) (combineBins (s.bins.getD (k - 1) default)
      (s.bins.getD k default))) }, ?_, rfl, rfl, rfl, rfl, ?_⟩
  · rw [medianOp, if_neg hcs, hex]; rfl
  · -- the combined bin has strictly larger count than the bin it replaces
    intro hcontra0
    have hcontra : s.bins.set (k - 1) (combineBins (s.bins.getD (k - 1) default)
        (s.bins.getD k default)) = s.bins := hcontra0
    have hklen : k - 1 < s.bins.length := by omega
    have h1 : (s.bins.set (k - 1) (combineBins (s.bins.getD (k - 1) default)
        (s.bins.getD k default))).getD (k - 1) default =
        combineBins (s.bins.getD (k - 1) default) (s.bins.getD k default) := by
      rw [List.getD_eq_getElem _ _ (by simpa using hklen)]
      simp [List.getElem_set]
    rw [hcontra] at h1
    have hcount := congrArg Bin.count h1
    simp only [combineBins] at hcount
    have hub : 0 < (s.bins.getD k default).count := by
      apply hpos
      rw [List.getD_eq_getElem _ _ hk2]
      exact List.getElem_mem hk2
    linarith

/-- Witness for `c4_median_even_mutates` at `push([0, 1, 2, 3])`. -/
theorem c4_median_even_mutates_witness :
    ∃ v s', medianOp hist4 = .ok (v, s') ∧
      s'.count = hist4.count ∧ s'.minv = hist4.minv ∧ s'.maxv = hist4.maxv ∧
      s'.bins = hist4.bins.set (firstIdxGE (hist4.count / 2) hist4.bins - 1)
        (combineBins (hist4.bins.getD (firstIdxGE (hist4.count / 2) hist4.bins - 1) default)
          (hist4.bins.getD (firstIdxGE (hist4.count / 2) hist4.bins) default)) ∧
      s'.bins ≠ hist4.bins :=
  c4_median_even_mutates hist4 (by with_unfolding_all decide) (by with_unfolding_all decide)
    (by with_unfolding_all decide) (by with_unfolding_all decide) (by with_unfolding_all decide)

lemma treeInsert_append (l : List Bin) (b : Bin) (h : ∀ x ∈ l, x.mean < b.mean) :
    treeInsert l b = l ++ [b] := by
  induction l with
  | nil => rfl
  | cons hd t ih =>
    have h1 : hd.mean < b.mean := h hd (List.mem_cons_self _ _)
    rw [treeInsert, if_neg (by linarith), if_neg (by intro he; rw [he] at h1; exact lt_irrefl _ h1)]
    rw [ih fun x hx => h x (List.mem_cons_of_mem _ hx)]
    rfl

/-- Re-inserting a strictly mean-sorted bin list into an empty tree (as
`fromJSON` does) reproduces it, modulo the per-bin transformation `g`
that keeps the mean. -/
lemma foldl_treeInsert_of_sorted (g : Bin → Bin) (hg : ∀ b, (g b).mean = b.mean) :
    ∀ (l acc : List Bin), (∀ x ∈ acc, ∀ y ∈ l, x.mean < y.mean) →
      l.Pairwise (fun a b => a.mean < b.mean) →
      l.foldl (fun acc' b => treeInsert acc' (g b)) acc = acc ++ l.map g := by
  intro l
  induction l with
  | nil => intro acc _ _; simp
  | cons b t ih =>
    intro acc hord hpair
    have hins : treeInsert acc (g b) = acc ++ [g b] := by
      apply treeInsert_append
      intro x hx
      rw [hg]
      exact hord x hx b (List.mem_cons_self _ _)
    have hbt : ∀ y ∈ t, b.mean < y.mean := (List.pairwise_cons.mp hpair).1
    have hrec := ih (acc ++ [g b]) ?_ (List.pairwise_cons.mp hpair).2
    · simp only [List.foldl_cons, hins, hrec, List.map_cons, List.append_assoc,
        List.singleton_append]
    · intro x hx y hy
      rcases List.mem_append.mp hx with hx | hx
      · exact hord x hx y (List.mem_cons_of_mem _ hy)
      · rw [List.mem_singleton.mp hx, hg]
        exact hbt y hy

/-- C7: snapshot round-trip.  For any sketch whose bin store satisfies
the RBTree ordering invariant, `fromSnapshot (toSnapshot s)` reproduces
the bin array (mean, count, tss triples, in order) and every persisted
scalar field (`count`, `min`, `max`, `maxBins`, `weighted`, `freeze`,
`warmUp`, `tss`); only the cumn cache starts out unset, as specified. -/
theorem c7_snapshot_roundtrip (s : State) (hs : SortedBins s.bins) :
    toArray (fromSnapshot (toSnapshot s)) = toArray s ∧
    (fromSnapshot (toSnapshot s)).count = s.count ∧
    (fromSnapshot (toSnapshot s)).minv = s.minv ∧
    (fromSnapshot (toSnapshot s)).maxv = s.maxv ∧
    (fromSnapshot (toSnapshot s)).maxBins = s.maxBins ∧
    (fromSnapshot (toSnapshot s)).weighted = s.weighted ∧
    (fromSnapshot (toSnapshot s)).freeze = s.freeze ∧
    (fromSnapshot (toSnapshot s)).warmUp = s.warmUp ∧
    (fromSnapshot (toSnapshot s)).tss = s.tss := by
  refine ⟨?_, rfl, rfl, rfl, rfl, rfl, rfl, rfl, rfl⟩
  haveI : IsTrans Bin fun a b => a.mean < b.mean :=
    ⟨fun _ _ _ h1 h2 => lt_trans h1 h2⟩
  have hpair : s.bins.Pairwise fun a b => a.mean < b.mean :=
    List.chain'_iff_pairwise.mp hs
  have hb : (fromSnapshot (toSnapshot s)).bins =
      s.bins.map fun b => ⟨b.mean, b.count, b.tss, 0⟩ := by
    show ((s.bins.map fun b => (b.mean, b.count, b.tss)).foldl
        (fun l p => treeInsert l ⟨p.1, p.2.1, p.2.2, 0⟩) []) = _
    rw [List.foldl_map]
    exact foldl_treeInsert_of_sorted (fun b => ⟨b.mean, b.count, b.tss, 0⟩)
      (fun _ => rfl) s.bins [] (by simp) hpair
  unfold toArray
  rw [hb, List.map_map]
  rfl

/-- Witness for `c7_snapshot_roundtrip` at the sketch `push([2,2,5,5])`. -/
theorem c7_snapshot_roundtrip_witness :
    toArray (fromSnapshot (toSnapshot quadHist)) = toArray quadHist ∧
    (fromSnapshot (toSnapshot quadHist)).count = quadHist.count ∧
    (fromSnapshot (toSnapshot quadHist)).minv = quadHist.minv ∧
    (fromSnapshot (toSnapshot quadHist)).maxv = quadHist.maxv ∧
    (fromSnapshot (toSnapshot quadHist)).maxBins = quadHist.maxBins ∧
    (fromSnapshot (toSnapshot quadHist)).weighted = quadHist.weighted ∧
    (fromSnapshot (toSnapshot quadHist)).freeze = quadHist.freeze ∧
    (fromSnapshot (toSnapshot quadHist)).warmUp = quadHist.warmUp ∧
    (fromSnapshot (toSnapshot quadHist)).tss = quadHist.tss :=
  c7_snapshot_roundtrip quadHist (by with_unfolding_all decide)

/-! ### Preservation lemmas for the count invariant (C1) -/

lemma binSum_cons (b : Bin) (l : List Bin) : binSum (b :: l) = b.count + binSum l := by
  simp [binSum]

lemma binSum_set (l : List Bin) (i : ℕ) (b : Bin) (h : i < l.length) :
    binSum (l.set i b) + (l.getD i default).count = binSum l + b.count := by
  induction l generalizing i with
  | nil => simp at h
  | cons a t ih =>
    cases i with
    | zero => simp [binSum_cons]; ring
    | succ n =>
      have h' : n < t.length := by simpa using h
      have ih' := ih n h'
      show binSum (a :: t.set n b) + ((a :: t).getD (n + 1) default).count =
        binSum (a :: t) + b.count
      rw [List.getD_cons_succ, binSum_cons, binSum_cons]
      linarith

lemma chain'_tail_bins {a : Bin} {l : List Bin} (h : SortedBins (a :: l)) : SortedBins l :=
  List.Chain'.tail h

lemma posCounts_tail {a : Bin} {l : List Bin} (h : PosCounts (a :: l)) : PosCounts l :=
  fun b hb => h b (List.mem_cons_of_mem _ hb)

lemma treeInsert_mem (l : List Bin) (b : Bin) :
    ∀ y ∈ treeInsert l b, y = b ∨ y ∈ l := by
  induction l with
  | nil => intro y hy; left; simpa [treeInsert] using hy
  | cons hd t ih =>
    intro y hy
    rw [treeInsert] at hy
    split at hy
    · rcases List.mem_cons.mp hy with hy | hy
      · exact Or.inl hy
      · exact Or.inr hy
    · split at hy
      · exact Or.inr hy
      · rcases List.mem_cons.mp hy with hy | hy
        · exact Or.inr (by simp [hy])
        · rcases ih y hy with h | h
          · exact Or.inl h
          · exact Or.inr (List.mem_cons_of_mem _ h)

lemma treeInsert_head (l : List Bin) (b : Bin) :
    (treeInsert l b).head? = some b ∨ (treeInsert l b).head? = l.head? := by
  cases l with
  | nil => left; rfl
  | cons hd t =>
    rw [treeInsert]
    split
    · left; rfl
    · split
      · right; rfl
      · right; rfl

lemma treeInsert_sorted (l : List Bin) (b : Bin) (h : SortedBins l) :
    SortedBins (treeInsert l b) := by
  induction l with
  | nil => exact List.chain'_singleton b
  | cons hd t ih =>
    rw [treeInsert]
    split
    · exact List.chain'_cons.mpr ⟨by assumption, h⟩
    · split
      · exact h
      · rename_i hlt heq
        have hd_lt : hd.mean < b.mean :=
          lt_of_le_of_ne (not_lt.mp hlt) fun hc => heq hc.symm
      -- `hd` relates to whatever ends up at the head of the inserted tail
        apply List.chain'_cons'.mpr
        refine ⟨?_, ih (chain'_tail_bins h)⟩
        intro h' hh'
        rcases treeInsert_head t b with hh | hh
        · rw [hh] at hh'
          simp only [Option.mem_def, Option.some.injEq] at hh'
          rw [← hh']; exact hd_lt
        · rw [hh] at hh'
          exact (List.chain'_cons'.mp h).1 h' hh'

lemma treeInsert_binSum (l : List Bin) (b : Bin) (h : ∀ y ∈ l, y.mean ≠ b.mean) :
    binSum (treeInsert l b) = binSum l + b.count := by
  induction l with
  | nil => simp [treeInsert, binSum]
  | cons hd t ih =>
    rw [treeInsert]
    split
    · simp [binSum_cons]; ring
    · split
      · exact absurd (by assumption : b.mean = hd.mean).symm
          (h hd (List.mem_cons_self _ _))
      · rw [binSum_cons, binSum_cons, ih fun y hy => h y (List.mem_cons_of_mem _ hy)]
        ring

lemma treeInsert_pos (l : List Bin) (b : Bin) (hl : PosCounts l) (hb : 0 < b.count) :
    PosCounts (treeInsert l b) := by
  intro y hy
  rcases treeInsert_mem l b y hy with h | h
  · rw [h]; exact hb
  · exact hl y h

lemma combineBins_count (a b : Bin) : (combineBins a b).count = a.count + b.count := rfl

lemma combine_mean_between (a b : Bin) (hm : a.mean < b.mean)
    (ha : 0 < a.count) (hb : 0 < b.count) :
    a.mean < (combineBins a b).mean ∧ (combineBins a b).mean < b.mean := by
  have hd : 0 < a.count + b.count := by linarith
  unfold combineBins
  dsimp only
  constructor
  · rw [lt_div_iff₀ hd]; nlinarith
  · rw [div_lt_iff₀ hd]; nlinarith

lemma mergePairAt_binSum : ∀ (i : ℕ) (l : List Bin), binSum (mergePairAt i l) = binSum l := by
  intro i
  induction i with
  | zero =>
    intro l
    match l with
    | [] => rfl
    | [a] => rfl
    | a :: b :: t => simp [mergePairAt, binSum_cons, combineBins_count]; ring
  | succ n ih =>
    intro l
    match l with
    | [] => rfl
    | [a] => rfl
    | a :: b :: t => simp [mergePairAt, binSum_cons, ih (b :: t)]

lemma mergePairAt_wf : ∀ (i : ℕ) (l : List Bin), SortedBins l → PosCounts l →
    SortedBins (mergePairAt i l) ∧ PosCounts (mergePairAt i l) ∧
    (∀ h0 ∈ l.head?, ∃ h, (mergePairAt i l).head? = some h ∧ h0.mean ≤ h.mean) := by
  intro i
  induction i with
  | zero =>
    intro l hs hp
    match l with
    | [] => exact ⟨hs, hp, by simp⟩
    | [a] => exact ⟨hs, hp, fun h0 hh0 => ⟨a, rfl, by simp_all⟩⟩
    | a :: b :: t =>
      have hab : a.mean < b.mean := (List.chain'_cons.mp hs).1
      have hcomb := combine_mean_between a b hab
        (hp a (List.mem_cons_self _ _))
        (hp b (List.mem_cons_of_mem _ (List.mem_cons_self _ _)))
      refine ⟨?_, ?_, ?_⟩
      · apply List.chain'_cons'.mpr
        refine ⟨?_, (chain'_tail_bins (chain'_tail_bins hs))⟩
        intro h' hh'
        have hb' := (List.chain'_cons'.mp (chain'_tail_bins hs)).1 h' hh'
        exact lt_trans hcomb.2 hb'
      · intro y hy
        rcases List.mem_cons.mp hy with hy | hy
        · rw [hy, combineBins_count]
          have := hp a (List.mem_cons_self _ _)
          have := hp b (List.mem_cons_of_mem _ (List.mem_cons_self _ _))
          linarith
        · exact hp y (List.mem_cons_of_mem _ (List.mem_cons_of_mem _ hy))
      · intro h0 hh0
        simp only [List.head?_cons, Option.mem_def, Option.some.injEq] at hh0
        exact ⟨combineBins a b, rfl, by rw [← hh0]; exact le_of_lt hcomb.1⟩
  | succ n ih =>
    intro l hs hp
    match l with
    | [] => exact ⟨hs, hp, by simp⟩
    | [a] => exact ⟨hs, hp, fun h0 hh0 => ⟨a, rfl, by simp_all⟩⟩
    | a :: b :: t =>
      obtain ⟨hs', hp', hh⟩ := ih (b :: t) (chain'_tail_bins hs) (posCounts_tail hp)
      obtain ⟨h, hM, hbh⟩ := hh b (by simp)
      have hred : mergePairAt (n + 1) (a :: b :: t) = a :: mergePairAt n (b :: t) := rfl
      have hab : a.mean < b.mean := (List.chain'_cons.mp hs).1
      rw [hred]
      refine ⟨?_, ?_, ?_⟩
      · apply List.chain'_cons'.mpr
        refine ⟨?_, hs'⟩
        intro h' hh'
        rw [hM] at hh'
        simp only [Option.mem_def, Option.some.injEq] at hh'
        rw [← hh']
        exact lt_of_lt_of_le hab hbh
      · intro y hy
        rcases List.mem_cons.mp hy with hy | hy
        · rw [hy]; exact hp a (List.mem_cons_self _ _)
        · exact hp' y hy
      · intro h0 hh0
        simp only [List.head?_cons, Option.mem_def, Option.some.injEq] at hh0
        exact ⟨a, rfl, by rw [← hh0]⟩

lemma compressGo_wf (w : Bool) (sel : List Bin → ℕ) (mb : ℚ) :
    ∀ (fuel : ℕ) (l : List Bin), SortedBins l → PosCounts l →
      SortedBins (compressGo w sel mb fuel l) ∧ PosCounts (compressGo w sel mb fuel l) ∧
        binSum (compressGo w sel mb fuel l) = binSum l := by
  intro fuel
  induction fuel with
  | zero => intro l hs hp; exact ⟨hs, hp, rfl⟩
  | succ n ih =>
    intro l hs hp
    by_cases hg : l.length ≤ 1 ∨ (l.length : ℚ) ≤ mb
    · rw [compressGo, if_pos hg]; exact ⟨hs, hp, rfl⟩
    · rw [compressGo, if_neg hg]
      obtain ⟨hs', hp', _⟩ := mergePairAt_wf (pickSel w sel l) l hs hp
      obtain ⟨h1, h2, h3⟩ := ih _ hs' hp'
      exact ⟨h1, h2, by rw [h3, mergePairAt_binSum]⟩

lemma compressState_wf (sel : List Bin → ℕ) (s : State)
    (hs : SortedBins s.bins) (hp : PosCounts s.bins) :
    SortedBins (compressState sel s).bins ∧ PosCounts (compressState sel s).bins ∧
      binSum (compressState sel s).bins = binSum s.bins :=
  compressGo_wf s.weighted sel s.maxBins s.bins.length s.bins hs hp

lemma sorted_head_lt {b : Bin} {t : List Bin} (h : SortedBins (b :: t)) :
    ∀ y ∈ t, b.mean < y.mean := by
  haveI : IsTrans Bin (fun a b => a.mean < b.mean) := ⟨fun _ _ _ h1 h2 => lt_trans h1 h2⟩
  exact (List.pairwise_cons.mp (List.chain'_iff_pairwise.mp h)).1

lemma findNearestIdxGo_exact (x : ℚ) (l : List Bin) :
    ∀ (t : List Bin) (pb : Bin) (pIdx : ℕ),
      SortedBins (pb :: t) → l.getD pIdx default = pb → l.drop (pIdx + 1) = t →
      pb.mean < x → (∃ y ∈ t, y.mean = x) →
      (l.getD (findNearestIdxGo x pb.mean pIdx (pIdx + 1) t) default).mean = x := by
  intro t
  induction t with
  | nil => intro pb pIdx _ _ _ _ h4; simp at h4
  | cons b t' ih =>
    intro pb pIdx hst h1 h2 h3 h4
    have hb : l.getD (pIdx + 1) default = b := by
      have hh : l[pIdx + 1]? = some b := by
        rw [← List.head?_drop, h2]; rfl
      rw [List.getD_eq_getElem?_getD, hh]; rfl
    rw [findNearestIdxGo]
    by_cases hxb : x ≤ b.mean
    · rw [if_pos hxb]
      by_cases hbx : b.mean = x
      · rw [if_pos hbx, hb]; exact hbx
      · exfalso
        obtain ⟨y, hy, hyx⟩ := h4
        rcases List.mem_cons.mp hy with rfl | hy'
        · exact hbx hyx
        · have hlt := sorted_head_lt (chain'_tail_bins hst) y hy'
          rw [hyx] at hlt
          exact absurd (lt_of_lt_of_le hlt hxb) (lt_irrefl _)
    · rw [if_neg hxb]
      push_neg at hxb
      have hdrop : l.drop (pIdx + 1 + 1) = t' := by
        have hdd : l.drop (pIdx + 1 + 1) = (l.drop (pIdx + 1)).drop 1 := by
          rw [List.drop_drop]
        rw [hdd, h2]; rfl
      have hmem' : ∃ y ∈ t', y.mean = x := by
        obtain ⟨y, hy, hyx⟩ := h4
        rcases List.mem_cons.mp hy with rfl | hy'
        · exact absurd hyx (by intro hc; rw [hc] at hxb; exact lt_irrefl _ hxb)
        · exact ⟨y, hy', hyx⟩
      exact ih b (pIdx + 1) (chain'_tail_bins hst) hb hdrop hxb hmem'

lemma findNearest_exact (x : ℚ) (l : List Bin) (hs : SortedBins l)
    (hmem : ∃ y ∈ l, y.mean = x) :
    ∃ i, findNearestIdx x l = some i ∧ (l.getD i default).mean = x := by
  match l with
  | [] => simp at hmem
  | b :: t =>
    rw [findNearestIdx]
    refine ⟨_, rfl, ?_⟩
    by_cases hxb : x ≤ b.mean
    · rw [if_pos hxb]
      obtain ⟨y, hy, hyx⟩ := hmem
      rcases List.mem_cons.mp hy with rfl | hy'
      · exact hyx
      · have hlt := sorted_head_lt hs y hy'
        rw [hyx] at hlt
        exact absurd (lt_of_lt_of_le hlt hxb) (lt_irrefl _)
    · rw [if_neg hxb]
      push_neg at hxb
      have hmem' : ∃ y ∈ t, y.mean = x := by
        obtain ⟨y, hy, hyx⟩ := hmem
        rcases List.mem_cons.mp hy with rfl | hy'
        · exact absurd hyx (by intro hc; rw [hc] at hxb; exact lt_irrefl _ hxb)
        · exact ⟨y, hy', hyx⟩
      exact findNearestIdxGo_exact x (b :: t) t b 0 hs rfl rfl hxb hmem'

lemma findNearestIdxGo_lt (x : ℚ) :
    ∀ (t : List Bin) (pm : ℚ) (p c N : ℕ), p < c → c + t.length = N →
      findNearestIdxGo x pm p c t < N := by
  intro t
  induction t with
  | nil => intro pm p c N hpc hcN; rw [findNearestIdxGo]; simp at hcN; omega
  | cons b t' ih =>
    intro pm p c N hpc hcN
    simp only [List.length_cons] at hcN
    rw [findNearestIdxGo]
    split
    · split
      · omega
      · split <;> omega
    · exact ih b.mean c (c + 1) N (by omega) (by omega)

lemma findNearestIdx_lt (x : ℚ) (b : Bin) (t : List Bin) :
    ∃ i, findNearestIdx x (b :: t) = some i ∧ i < t.length + 1 := by
  rw [findNearestIdx]
  refine ⟨_, rfl, ?_⟩
  split
  · omega
  · exact findNearestIdxGo_lt x t b.mean 0 1 (t.length + 1) (by omega) (by omega)

lemma findNearestIdx_none (x : ℚ) (l : List Bin) (h : findNearestIdx x l = none) :
    l = [] := by
  cases l with
  | nil => rfl
  | cons b t => simp [findNearestIdx] at h

lemma sortedBins_set_same_mean (l : List Bin) (i : ℕ) (b : Bin)
    (hs : SortedBins l) (hm : (l.getD i default).mean = b.mean) :
    SortedBins (l.set i b) := by
  induction l generalizing i with
  | nil => simpa [List.set] using hs
  | cons a t ih =>
    cases i with
    | zero =>
      show SortedBins (b :: t)
      apply List.chain'_cons'.mpr
      refine ⟨?_, chain'_tail_bins hs⟩
      intro h' hh'
      have hrel := (List.chain'_cons'.mp hs).1 h' hh'
      simpa using hm ▸ hrel
    | succ n =>
      show SortedBins (a :: t.set n b)
      apply List.chain'_cons'.mpr
      refine ⟨?_, ih n (chain'_tail_bins hs) (by simpa using hm)⟩
      intro h' hh'
      cases t with
      | nil => simp at hh'
      | cons c t' =>
        cases n with
        | zero =>
          simp only [List.set] at hh'
          simp only [List.head?_cons, Option.mem_def, Option.some.injEq] at hh'
          have hrel := (List.chain'_cons'.mp hs).1 c (by simp)
          have hm0 : c.mean = b.mean := by simpa using hm
          rw [← hh', ← hm0]
          exact hrel
        | succ m =>
          simp only [List.set] at hh'
          simp only [List.head?_cons, Option.mem_def, Option.some.injEq] at hh'
          have hrel := (List.chain'_cons'.mp hs).1 c (by simp)
          rw [← hh']
          exact hrel

lemma findNearestIdx_some_lt (x : ℚ) (l : List Bin) (i : ℕ)
    (h : findNearestIdx x l = some i) : i < l.length := by
  cases l with
  | nil => simp [findNearestIdx] at h
  | cons b t =>
    obtain ⟨i', hi', hlt⟩ := findNearestIdx_lt x b t
    rw [h] at hi'
    injection hi' with hii
    rw [hii]
    simpa using hlt

lemma insertStep_count (s : State) (x c : ℚ) : (insertStep s x c).count = s.count + c := by
  unfold insertStep
  dsimp only
  split
  · rfl
  · split <;> rfl

lemma insertStep_warmUp (s : State) (x c : ℚ) : (insertStep s x c).warmUp = s.warmUp := by
  unfold insertStep
  dsimp only
  split
  · rfl
  · split <;> rfl

lemma warmUpStep_skip (s : State) (h : s.count ≠ s.warmUp) : warmUpStep s = s := by
  unfold warmUpStep; rw [if_neg h]

lemma insertStep_wf (s : State) (x c : ℚ) (hs : SortedBins s.bins) (hp : PosCounts s.bins)
    (hc : 0 < c) :
    SortedBins (insertStep s x c).bins ∧ PosCounts (insertStep s x c).bins ∧
      binSum (insertStep s x c).bins = binSum s.bins + c := by
  unfold insertStep
  dsimp only
  split
  · -- findNearest returned null: the sketch was empty
    rename_i hfn
    have hnil : s.bins = [] := findNearestIdx_none x s.bins hfn
    rw [hnil]
    refine ⟨List.chain'_singleton _, ?_, by simp [treeInsert, binSum]⟩
    intro y hy
    simp only [treeInsert, List.mem_singleton] at hy
    rw [hy]
    exact hc
  · rename_i i hfn
    have hilen : i < s.bins.length := findNearestIdx_some_lt x s.bins i hfn
    split
    · -- add weight to the nearest bin in place
      rename_i hcond
      refine ⟨?_, ?_, ?_⟩
      · exact sortedBins_set_same_mean s.bins i _ hs rfl
      · intro y hy
        rcases List.mem_or_eq_of_mem_set hy with hy' | hy'
        · exact hp y hy'
        · rw [hy']
          have : 0 < (s.bins.getD i default).count := by
            apply hp
            rw [List.getD_eq_getElem _ _ hilen]
            exact List.getElem_mem hilen
          show 0 < (s.bins.getD i default).count + c
          linarith
      · have := binSum_set s.bins i
          { s.bins.getD i default with count := (s.bins.getD i default).count + c } hilen
        simp only at this
        linarith
    · -- fresh bin: its mean collides with no existing bin
      rename_i hcond
      have hne : (s.bins.getD i default).mean ≠ x := fun hmean => hcond (Or.inl hmean)
      have hnomem : ∀ y ∈ s.bins, y.mean ≠ x := by
        intro y hy hyx
        obtain ⟨i', hi', hmean⟩ := findNearest_exact x s.bins hs ⟨y, hy, hyx⟩
        rw [hfn] at hi'
        injection hi' with hii
        rw [← hii] at hmean
        exact hne hmean
      exact ⟨treeInsert_sorted s.bins _ hs, treeInsert_pos s.bins _ hp hc,
        treeInsert_binSum s.bins _ hnomem⟩

lemma pushOne_wf (sel : List Bin → ℕ) (s : State) (x c : ℚ)
    (hs : SortedBins s.bins) (hp : PosCounts s.bins) (hinv : Inv s)
    (hc : 0 < c) (hcnt : 0 ≤ s.count) (hw : s.warmUp = 0) :
    SortedBins (pushOne sel s x c).bins ∧ PosCounts (pushOne sel s x c).bins ∧
      Inv (pushOne sel s x c) ∧ 0 ≤ (pushOne sel s x c).count ∧
      (pushOne sel s x c).warmUp = 0 := by
  obtain ⟨h1, h2, h3⟩ := insertStep_wf s x c hs hp hc
  obtain ⟨h4, h5, h6⟩ := compressState_wf sel (insertStep s x c) h1 h2
  have hcount : (compressState sel (insertStep s x c)).count = s.count + c := by
    rw [show (compressState sel (insertStep s x c)).count = (insertStep s x c).count from rfl,
      insertStep_count]
  have hwu : (compressState sel (insertStep s x c)).warmUp = 0 := by
    rw [show (compressState sel (insertStep s x c)).warmUp = (insertStep s x c).warmUp from rfl,
      insertStep_warmUp, hw]
  have hskip : warmUpStep (compressState sel (insertStep s x c)) =
      compressState sel (insertStep s x c) := by
    apply warmUpStep_skip
    rw [hcount, hwu]
    intro hzero
    linarith
  rw [show pushOne sel s x c = warmUpStep (compressState sel (insertStep s x c)) from rfl, hskip]
  refine ⟨h4, h5, ?_, ?_, hwu⟩
  · show (compressState sel (insertStep s x c)).count = _
    rw [hcount, h6, h3, ← hinv]
  · rw [hcount]; linarith

lemma foldl_treeInsert_wf :
    ∀ (ins acc : List Bin), SortedBins acc → PosCounts acc → SortedBins ins → PosCounts ins →
      (∀ b ∈ ins, ∀ y ∈ acc, y.mean ≠ b.mean) →
      SortedBins (ins.foldl treeInsert acc) ∧ PosCounts (ins.foldl treeInsert acc) ∧
        binSum (ins.foldl treeInsert acc) = binSum acc + binSum ins := by
  intro ins
  induction ins with
  | nil => intro acc h1 h2 _ _ _; exact ⟨h1, h2, by simp [binSum]⟩
  | cons b ins' ih =>
    intro acc h1 h2 h3 h4 h5
    simp only [List.foldl_cons]
    have hbp : 0 < b.count := h4 b (List.mem_cons_self _ _)
    have hdisb : ∀ y ∈ acc, y.mean ≠ b.mean := fun y hy => h5 b (List.mem_cons_self _ _) y hy
    have hs' := treeInsert_sorted acc b h1
    have hp' := treeInsert_pos acc b h2 hbp
    have hsum' := treeInsert_binSum acc b hdisb
    have hdis' : ∀ z ∈ ins', ∀ y ∈ treeInsert acc b, y.mean ≠ z.mean := by
      intro z hz y hy
      rcases treeInsert_mem acc b y hy with rfl | hy'
      · exact ne_of_lt (sorted_head_lt h3 z hz)
      · exact h5 z (List.mem_cons_of_mem _ hz) y hy'
    obtain ⟨g1, g2, g3⟩ := ih (treeInsert acc b) hs' hp' (chain'_tail_bins h3)
      (posCounts_tail h4) hdis'
    exact ⟨g1, g2, by rw [g3, hsum', binSum_cons]; ring⟩

lemma maxBinsSet_count (sel : List Bin → ℕ) (s : State) (v : ℚ) :
    (maxBinsSet sel s v).count = s.count := by
  unfold maxBinsSet compressState
  dsimp only
  split <;> split <;> rfl

lemma maxBinsSet_warmUp (sel : List Bin → ℕ) (s : State) (v : ℚ) :
    (maxBinsSet sel s v).warmUp = s.warmUp := by
  unfold maxBinsSet compressState
  dsimp only
  split <;> split <;> rfl

lemma maxBinsSet_wf (sel : List Bin → ℕ) (s : State) (v : ℚ)
    (hs : SortedBins s.bins) (hp : PosCounts s.bins) :
    SortedBins (maxBinsSet sel s v).bins ∧ PosCounts (maxBinsSet sel s v).bins ∧
      binSum (maxBinsSet sel s v).bins = binSum s.bins := by
  unfold maxBinsSet
  dsimp only
  split <;> split
  all_goals first
    | exact compressState_wf sel _ hs hp
    | exact ⟨hs, hp, rfl⟩

lemma mergePre_spec (sel : List Bin → ℕ) (s o : State) (mb : Option ℚ)
    (hs : SortedBins s.bins) (hp : PosCounts s.bins) :
    (mergePre sel s o mb).count = s.count + o.count ∧
      (mergePre sel s o mb).warmUp = s.warmUp ∧
      SortedBins (mergePre sel s o mb).bins ∧ PosCounts (mergePre sel s o mb).bins ∧
      binSum (mergePre sel s o mb).bins = binSum s.bins := by
  unfold mergePre
  dsimp only
  refine ⟨?_, ?_, ?_⟩
  · rw [maxBinsSet_count]
  · rw [maxBinsSet_warmUp]
  · exact maxBinsSet_wf sel _ _ hs hp

lemma mergeOp_wf (sel : List Bin → ℕ) (s o : State) (mb : Option ℚ)
    (hs : SortedBins s.bins) (hp : PosCounts s.bins) (hinv : Inv s)
    (hos : SortedBins o.bins) (hop : PosCounts o.bins) (hoinv : Inv o)
    (hdis : ∀ b ∈ o.bins, ∀ y ∈ (mergePre sel s o mb).bins, b.mean ≠ y.mean) :
    SortedBins (mergeOp sel s o mb).bins ∧ PosCounts (mergeOp sel s o mb).bins ∧
      Inv (mergeOp sel s o mb) ∧ (mergeOp sel s o mb).count = s.count + o.count ∧
      (mergeOp sel s o mb).warmUp = s.warmUp := by
  obtain ⟨hc, hw, hps, hpp, hpsum⟩ := mergePre_spec sel s o mb hs hp
  obtain ⟨f1, f2, f3⟩ := foldl_treeInsert_wf o.bins (mergePre sel s o mb).bins hps hpp hos hop
    (fun b hb y hy => (hdis b hb y hy).symm)
  have heq : mergeOp sel s o mb = compressState sel
      { mergePre sel s o mb with
        bins := o.bins.foldl treeInsert (mergePre sel s o mb).bins } := rfl
  obtain ⟨g1, g2, g3⟩ :=
    compressState_wf sel
      { mergePre sel s o mb with bins := o.bins.foldl treeInsert (mergePre sel s o mb).bins }
      f1 f2
  rw [heq]
  refine ⟨g1, g2, ?_, ?_, ?_⟩
  · show (mergePre sel s o mb).count = _
    rw [g3, hc]
    show _ = binSum (o.bins.foldl treeInsert (mergePre sel s o mb).bins)
    rw [f3, hpsum, ← hinv, ← hoinv]
  · show (mergePre sel s o mb).count = _
    rw [hc]
  · show (mergePre sel s o mb).warmUp = _
    rw [hw]

/-- C1, amended: `count()` equals the sum of the bin counts after every
push and merge, provided warm-up is disabled, pushed weights are
positive, and every merge's operand is itself well formed, satisfies the
invariant, and shares no bin mean with the receiver at insertion time
(`OkRun`).  The unrestricted claim fails at a warm-up reset
(`c1_counterexample`) and at an equal-mean merge collision. -/
theorem c1_count_invariant (sel : List Bin → ℕ) (s : State) (ops : List Op)
    (hs : SortedBins s.bins) (hp : PosCounts s.bins) (hinv : Inv s)
    (hcnt : 0 ≤ s.count) (hw : s.warmUp = 0) (hok : OkRun sel s ops) :
    Inv (runOps sel s ops) := by
  induction ops generalizing s with
  | nil => exact hinv
  | cons op rest ih =>
    have hok' : OkOp sel s op ∧ OkRun sel (runOp sel s op) rest := hok
    obtain ⟨hop1, hrest⟩ := hok'
    show Inv (runOps sel (runOp sel s op) rest)
    cases op with
    | push x wt =>
      obtain ⟨p1, p2, p3, p4, p5⟩ := pushOne_wf sel s x wt hs hp hinv hop1 hcnt hw
      exact ih (pushOne sel s x wt) p1 p2 p3 p4 p5 hrest
    | mergeWith o mb =>
      obtain ⟨hoinv, hocnt, hosort, hopos, hdis⟩ := hop1
      obtain ⟨m1, m2, m3, m4, m5⟩ := mergeOp_wf sel s o mb hs hp hinv hosort hopos hoinv hdis
      refine ih (mergeOp sel s o mb) m1 m2 m3 ?_ ?_ hrest
      · rw [m4]; linarith
      · rw [m5, hw]

/-- C1, counterexample: with `warmUp = 2`, pushing `[5, 5]` triggers the
warm-up reset — the single bin's count drops to 1 while `count()` stays
2, so `count()` no longer equals the sum of the bin counts. -/
theorem c1_counterexample : ¬ Inv warm2 := by with_unfolding_all decide

/-- Witness for `c1_count_invariant`: two pushes followed by a merge with
a disjoint single-bin sketch. -/
theorem c1_count_invariant_witness :
    Inv (runOps uSel emptyHist [Op.push 1 1, Op.push 2 1, Op.mergeWith hist5 none]) :=
  c1_count_invariant uSel emptyHist [Op.push 1 1, Op.push 2 1, Op.mergeWith hist5 none]
    (by with_unfolding_all decide) (by with_unfolding_all decide)
    (by with_unfolding_all decide) (by with_unfolding_all decide)
    (by with_unfolding_all decide) (by with_unfolding_all decide)

/-! ### The lazy cumulative pass (C10) -/

lemma cumulateBins_binSum (acc : ℚ) (l : List Bin) :
    binSum (cumulateBins acc l) = binSum l := by
  induction l generalizing acc with
  | nil => rfl
  | cons b t ih => simp [cumulateBins, binSum_cons, ih]

lemma cumulate_restores (s : State) (h : s.count ≠ s.cumn) :
    (cumulate s).count = binSum (cumulate s).bins := by
  unfold cumulate
  rw [if_neg h]
  show binSum s.bins = binSum (cumulateBins 0 s.bins)
  rw [cumulateBins_binSum]

/-- C10, amended: on a sketch whose cumn cache is stale (in particular,
right after a warm-up reset, when `count()` differs from the bin total),
the calls that reach the interpolation path — `sum` with `min ≤ arg <
max`, `quantile` with `0 < q < 1`, and `median` with `count() > size()` —
run `_cumulate`, which overwrites `count()` with the sum of the bin
counts; the shortcut paths (such as `quantile(0)`) return without
touching the sketch, so the *first* call mutates only if it reaches the
interpolation path. -/
theorem c10_first_query_overwrites_count (s : State) (b q mn mx : ℚ)
    (hb : s.bins ≠ []) (hmn : s.minv = some mn) (hmx : s.maxv = some mx)
    (hstale : s.count ≠ s.cumn)
    (hq0 : 0 < q) (hq1 : q < 1) (hble : mn ≤ b) (hblt : b < mx) :
    (sumOp s b).2.count = binSum (sumOp s b).2.bins ∧
    (∀ r s', quantileOp s q = .ok (r, s') → s'.count = binSum s'.bins) ∧
    (s.count > (s.bins.length : ℚ) →
      ∀ r s', medianOp s = .ok (r, s') → s'.count = binSum s'.bins) ∧
    quantileOp s 0 = .ok (s.minv.map (fun m => (m : ℝ)), s) := by
  have hlen : ¬ s.bins.length = 0 := by
    intro hzero
    exact hb (List.length_eq_zero.mp hzero)
  have hqgen : ∀ (q' : ℚ), 0 < q' → q' < 1 →
      ∀ r s', quantileOp s q' = .ok (r, s') → s'.count = binSum s'.bins := by
    intro q' hq0' hq1' r s' h
    rw [quantileOp, if_neg hlen, if_neg (by linarith), if_neg (by linarith)] at h
    dsimp only at h
    rcases hbc : boundCumn (s.count * q') (cumulate s).bins with ⟨lo, up⟩
    rw [hbc] at h
    cases lo with
    | none => exact absurd h (by simp)
    | some lo' =>
      simp only [Except.ok.injEq, Prod.mk.injEq] at h
      rw [← h.2]
      exact cumulate_restores s hstale
  refine ⟨?_, hqgen q hq0 hq1, ?_, ?_⟩
  · rw [sumOp, if_neg hlen]
    rw [if_neg (by rw [show jsMin s = mn by rw [jsMin, hmn]; rfl]; linarith)]
    rw [if_neg (by rw [show jsMax s = mx by rw [jsMax, hmx]; rfl]; linarith)]
    dsimp only
    split
    · exact cumulate_restores s hstale
    · split
      · exact cumulate_restores s hstale
      · exact cumulate_restores s hstale
  · intro hcs r s' h
    rw [medianOp, if_pos hcs] at h
    exact hqgen (1 / 2) (by norm_num) (by norm_num) r s' h
  · rw [quantileOp, if_neg hlen, if_pos le_rfl]

/-- C10, counterexample: on the stale post-warm-up sketch `warm2`
(count 2, bin total 1), the first call `sum(5)` hits the `arg ≥ max`
shortcut: it returns `count()` and leaves the sketch untouched, so
`count()` afterwards still differs from the sum of the bin counts —
the first query call does not always run the cumulative pass. -/
theorem c10_counterexample :
    sumOp warm2 5 = (some 2, warm2) ∧ warm2.count ≠ binSum warm2.bins := by
  with_unfolding_all decide

/-! ### Monotonicity of quantile and sum (C8) -/

/-- C8, counterexample.  Quantile: on `push([2, 2, 5, 5])` (count 4,
bins `{2,2}`,`{5,2}`), `quantile(3/8) = 11/4` but `quantile(1/2) = 2`:
the target mass 2 coincides with the bin *mean* 2, so `_boundCumn`'s
`lo.mean === x` branch collapses the bracket and the larger quantile
returns the smaller value.  Sum: on `StreamHist(2).push([0,10,30,20,15])`
(bins `{25/3,3}`,`{25,2}`, `min() = 0`), `sum(-1/2) = 0` but
`sum(0) = -1/8 < 0`: below the smallest bin mean the interpolation
extrapolates to a negative mass.  Both violate monotonicity as claimed. -/
theorem c8_counterexample :
    quantileOp quadHist (3 / 8) = .ok (some ((11 : ℝ) / 4), cumulate quadHist) ∧
    quantileOp quadHist (1 / 2) = .ok (some (2 : ℝ), cumulate quadHist) ∧
    ((3 : ℚ) / 8 ≤ 1 / 2) ∧ ¬ ((11 : ℝ) / 4 ≤ 2) ∧
    (sumOp skewHist (-1 / 2)).1 = some 0 ∧ (sumOp skewHist 0).1 = some (-1 / 8) ∧
    ((-1 : ℚ) / 2 ≤ 0) ∧ ¬ ((0 : ℚ) ≤ -1 / 8) := by
  have hlen : ¬ quadHist.bins.length = 0 := by with_unfolding_all decide
  have hq1 : quadHist.count * (3 / 8) = 3 / 2 := by with_unfolding_all decide
  have hq2 : quadHist.count * (1 / 2) = 2 := by with_unfolding_all decide
  have hbc1 : boundCumn (quadHist.count * (3 / 8)) (cumulate quadHist).bins =
      (some ⟨2, 2, 0, 1⟩, ⟨5, 2, 0, 3⟩) := by with_unfolding_all decide
  have hbc2 : boundCumn (quadHist.count * (1 / 2)) (cumulate quadHist).bins =
      (some ⟨2, 2, 0, 1⟩, ⟨2, 2, 0, 1⟩) := by with_unfolding_all decide
  have hval1 : quantileVal (quadHist.count * (3 / 8)) ⟨2, 2, 0, 1⟩ ⟨5, 2, 0, 3⟩ =
      (11 : ℝ) / 4 := by
    rw [hq1]
    unfold quantileVal quantileZ
    norm_num
  have hval2 : quantileVal (quadHist.count * (1 / 2)) ⟨2, 2, 0, 1⟩ ⟨2, 2, 0, 1⟩ =
      (2 : ℝ) := by
    rw [hq2]
    unfold quantileVal quantileZ
    norm_num
  refine ⟨?_, ?_, by norm_num, by norm_num, ?_, ?_, by norm_num, by norm_num⟩
  · rw [quantileOp, if_neg hlen, if_neg (by norm_num), if_neg (by norm_num)]
    dsimp only
    rw [hbc1]
    show Except.ok (some (quantileVal (quadHist.count * (3 / 8)) ⟨2, 2, 0, 1⟩ ⟨5, 2, 0, 3⟩),
      cumulate quadHist) = _
    rw [hval1]
  · rw [quantileOp, if_neg hlen, if_neg (by norm_num), if_neg (by norm_num)]
    dsimp only
    rw [hbc2]
    show Except.ok (some (quantileVal (quadHist.count * (1 / 2)) ⟨2, 2, 0, 1⟩ ⟨2, 2, 0, 1⟩),
      cumulate quadHist) = _
    rw [hval2]
  · with_unfolding_all decide
  · with_unfolding_all decide

/-- Witness for `c10_first_query_overwrites_count` on the stale sketch
`warm3` (count 3, bin total 2, min 5, max 9). -/
theorem c10_first_query_overwrites_count_witness :
    (sumOp warm3 6).2.count = binSum (sumOp warm3 6).2.bins ∧
    (∀ r s', quantileOp warm3 (1 / 3) = .ok (r, s') → s'.count = binSum s'.bins) ∧
    (warm3.count > (warm3.bins.length : ℚ) →
      ∀ r s', medianOp warm3 = .ok (r, s') → s'.count = binSum s'.bins) ∧
    quantileOp warm3 0 = .ok (warm3.minv.map (fun m => (m : ℝ)), warm3) :=
  c10_first_query_overwrites_count warm3 6 (1 / 3) 5 9
    (by with_unfolding_all decide) (by with_unfolding_all decide)
    (by with_unfolding_all decide) (by with_unfolding_all decide)
    (by norm_num) (by norm_num) (by norm_num) (by norm_num)

/-! #### Structure of the cumulated bin list -/

lemma cumLinked_cons {a b : Bin} {l : List Bin} (h : CumLinked (a :: b :: l)) :
    b.cumn = a.cumn + (a.count + b.count) / 2 ∧ CumLinked (b :: l) :=
  List.chain'_cons.mp h

lemma sorted_cons {a b : Bin} {l : List Bin} (h : SortedBins (a :: b :: l)) :
    a.mean < b.mean ∧ SortedBins (b :: l) :=
  List.chain'_cons.mp h

lemma cumulateBins_map_mean : ∀ (l : List Bin) (acc : ℚ),
    (cumulateBins acc l).map Bin.mean = l.map Bin.mean
  | [], _ => rfl
  | a :: t, acc => by
    show a.mean :: (cumulateBins (acc + a.count) t).map Bin.mean = a.mean :: t.map Bin.mean
    rw [cumulateBins_map_mean t (acc + a.count)]

lemma cumulateBins_sorted : ∀ (l : List Bin) (acc : ℚ),
    SortedBins l → SortedBins (cumulateBins acc l)
  | [], _, _ => List.chain'_nil
  | [_], _, _ => List.chain'_singleton _
  | a :: b :: t, acc, h => by
    obtain ⟨hab, htl⟩ := sorted_cons h
    exact List.chain'_cons.mpr ⟨hab, cumulateBins_sorted (b :: t) (acc + a.count) htl⟩

lemma cumulateBins_pos : ∀ (l : List Bin) (acc : ℚ),
    PosCounts l → PosCounts (cumulateBins acc l)
  | [], _, _ => fun b hb => absurd hb (List.not_mem_nil b)
  | a :: t, acc, h => by
    intro b hb
    rcases List.mem_cons.mp hb with hb | hb
    · rw [hb]; exact h a (List.mem_cons_self _ _)
    · exact cumulateBins_pos t (acc + a.count) (posCounts_tail h) b hb

lemma cumulateBins_linked : ∀ (l : List Bin) (acc : ℚ), CumLinked (cumulateBins acc l)
  | [], _ => List.chain'_nil
  | [_], _ => List.chain'_singleton _
  | a :: b :: t, acc => by
    refine List.chain'_cons.mpr ⟨?_, cumulateBins_linked (b :: t) (acc + a.count)⟩
    show acc + a.count + b.count / 2 = acc + a.count / 2 + (a.count + b.count) / 2
    ring

lemma cumulateBins_lastMean : ∀ (l : List Bin) (acc : ℚ),
    lastMean (cumulateBins acc l) = lastMean l
  | [], _ => rfl
  | [a], acc => by
    show ((cumulateBins acc [a]).getLast?.getD default).mean = _
    rfl
  | a :: b :: t, acc => by
    show (((⟨a.mean, a.count, a.tss, acc + a.count / 2⟩ : Bin) ::
      cumulateBins (acc + a.count) (b :: t)).getLast?.getD default).mean = lastMean (a :: b :: t)
    have h1 : lastMean (a :: b :: t) = lastMean (b :: t) := by
      unfold lastMean
      rw [List.getLast?_cons_cons]
    rw [h1, ← cumulateBins_lastMean (b :: t) (acc + a.count)]
    show lastMean (_ :: cumulateBins (acc + a.count) (b :: t)) = _
    unfold lastMean
    rcases h : cumulateBins (acc + a.count) (b :: t) with _ | ⟨c, u⟩
    · exact absurd h (by show ¬ (_ :: _ = []); simp)
    · rw [List.getLast?_cons_cons]

lemma posCounts_last : ∀ (l : List Bin), l ≠ [] → PosCounts l →
    0 < (l.getLast?.getD default).count
  | [], h, _ => absurd rfl h
  | [a], _, hp => by
    show 0 < (((some a).getD default).count)
    exact hp a (List.mem_cons_self _ _)
  | a :: b :: t, _, hp => by
    rw [List.getLast?_cons_cons]
    exact posCounts_last (b :: t) (by simp) (posCounts_tail hp)

lemma cumulateBins_lastCumn : ∀ (l : List Bin) (acc : ℚ), l ≠ [] →
    lastCumn (cumulateBins acc l) = acc + binSum l - (l.getLast?.getD default).count / 2
  | [], _, h => absurd rfl h
  | [a], acc, _ => by
    show (((some ⟨a.mean, a.count, a.tss, acc + a.count / 2⟩).getD default) : Bin).cumn = _
    show acc + a.count / 2 = acc + binSum [a] - ((some a).getD default).count / 2
    show acc + a.count / 2 = acc + (a.count + 0) - a.count / 2
    ring
  | a :: b :: t, acc, _ => by
    have h1 : lastCumn (cumulateBins acc (a :: b :: t)) =
        lastCumn (cumulateBins (acc + a.count) (b :: t)) := by
      show lastCumn (_ :: cumulateBins (acc + a.count) (b :: t)) = _
      unfold lastCumn
      rcases h : cumulateBins (acc + a.count) (b :: t) with _ | ⟨c, u⟩
      · exact absurd h (by show ¬ (_ :: _ = []); simp)
      · rw [List.getLast?_cons_cons]
    rw [h1, cumulateBins_lastCumn (b :: t) (acc + a.count) (by simp)]
    rw [show (a :: b :: t).getLast?.getD default = (b :: t).getLast?.getD default from
      by rw [List.getLast?_cons_cons]]
    rw [show binSum (a :: b :: t) = a.count + binSum (b :: t) from binSum_cons a (b :: t)]
    ring

lemma binSum_nonneg : ∀ (l : List Bin), PosCounts l → 0 ≤ binSum l
  | [], _ => le_refl _
  | a :: t, hp => by
    rw [binSum_cons]
    have h1 : 0 < a.count := hp a (List.mem_cons_self _ _)
    have h2 : 0 ≤ binSum t := binSum_nonneg t (posCounts_tail hp)
    linarith

/-! #### Algebra of the `_sum` interpolation -/

lemma sumInterp_self (base x : ℚ) (p : Bin) : sumInterp base x p p = base := by
  unfold sumInterp
  rw [sub_self]
  simp

lemma sumInterp_eq (lo up : Bin) (hm : lo.mean < up.mean) (base x : ℚ) :
    sumInterp base x lo up =
      base + lo.count * ((x - lo.mean) / (up.mean - lo.mean)) +
        (up.count - lo.count) * ((x - lo.mean) / (up.mean - lo.mean)) ^ 2 / 2 := by
  have h0 : up.mean - lo.mean ≠ 0 := ne_of_gt (by linarith)
  unfold sumInterp
  field_simp
  ring

lemma sumInterp_lo (lo up : Bin) (base : ℚ) : sumInterp base lo.mean lo up = base := by
  unfold sumInterp
  rw [sub_self]
  simp

lemma sumInterp_up (lo up : Bin) (hm : lo.mean < up.mean) (base : ℚ) :
    sumInterp base up.mean lo up = base + (lo.count + up.count) / 2 := by
  have h0 : up.mean - lo.mean ≠ 0 := ne_of_gt (by linarith)
  rw [sumInterp_eq lo up hm, div_self h0]
  ring

lemma sumInterp_mono (lo up : Bin) (hm : lo.mean < up.mean) (hlc : 0 < lo.count)
    (huc : 0 < up.count) (base x1 x2 : ℚ) (ha : lo.mean ≤ x1) (hb : x1 ≤ x2)
    (hc : x2 ≤ up.mean) :
    sumInterp base x1 lo up ≤ sumInterp base x2 lo up := by
  have hΔ : (0 : ℚ) < up.mean - lo.mean := by linarith
  rw [sumInterp_eq lo up hm, sumInterp_eq lo up hm]
  set r1 := (x1 - lo.mean) / (up.mean - lo.mean) with hr1def
  set r2 := (x2 - lo.mean) / (up.mean - lo.mean) with hr2def
  have h1 : 0 ≤ r1 := div_nonneg (by linarith) hΔ.le
  have h12 : r1 ≤ r2 := by
    rw [hr1def, hr2def]
    gcongr
  have h2 : r2 ≤ 1 := by
    rw [hr2def, div_le_one hΔ]
    linarith
  have hfac : 0 ≤ lo.count + (up.count - lo.count) * (r1 + r2) / 2 := by
    rcases le_total 0 (up.count - lo.count) with hmd | hmd
    · nlinarith [mul_nonneg hmd (show (0 : ℚ) ≤ r1 + r2 by linarith)]
    · nlinarith [mul_le_mul_of_nonpos_left (show r1 + r2 ≤ 2 by linarith) hmd]
  nlinarith [mul_nonneg (sub_nonneg.mpr h12) hfac]

/-! #### The `_sum` scan: value bounds and monotonicity -/

lemma lastMean_cons_cons (a b : Bin) (l : List Bin) :
    lastMean (a :: b :: l) = lastMean (b :: l) := by
  unfold lastMean
  rw [List.getLast?_cons_cons]

lemma lastCumn_cons_cons (a b : Bin) (l : List Bin) :
    lastCumn (a :: b :: l) = lastCumn (b :: l) := by
  unfold lastCumn
  rw [List.getLast?_cons_cons]

lemma sGoVal_nil (x : ℚ) (p : Bin) : sGoVal x p [] = p.cumn := by
  unfold sGoVal
  show sumValC x p p = p.cumn
  unfold sumValC
  split
  · rfl
  · exact sumInterp_self p.cumn x p

lemma sGoVal_bracket (x : ℚ) (p b : Bin) (t : List Bin) (hx : p.mean < x) (hxb : x ≤ b.mean) :
    sGoVal x p (b :: t) = sumInterp p.cumn x p b := by
  unfold sGoVal
  rw [show boundGo x p (b :: t) = (p, b) from by
    show (if x ≤ b.mean then (p, if p.mean = x then p else b) else boundGo x b t) = (p, b)
    rw [if_pos hxb, if_neg (ne_of_lt hx)]]
  show sumValC x p b = _
  unfold sumValC
  rw [if_neg (sub_ne_zero.mpr (ne_of_gt hx))]

lemma sGoVal_skip (x : ℚ) (p b : Bin) (t : List Bin) (h : ¬ x ≤ b.mean) :
    sGoVal x p (b :: t) = sGoVal x b t := by
  unfold sGoVal
  rw [show boundGo x p (b :: t) = boundGo x b t from by
    show (if x ≤ b.mean then (p, if p.mean = x then p else b) else boundGo x b t) = _
    rw [if_neg h]]

lemma sGoVal_lower (x : ℚ) : ∀ (t : List Bin) (p : Bin),
    SortedBins (p :: t) → PosCounts (p :: t) → CumLinked (p :: t) → p.mean < x →
    p.cumn ≤ sGoVal x p t
  | [], p, _, _, _, _ => le_of_eq (sGoVal_nil x p).symm
  | b :: t', p, hs, hp, hc, hx => by
    have hm : p.mean < b.mean := (sorted_cons hs).1
    have hlc : 0 < p.count := hp p (List.mem_cons_self _ _)
    have hbc : 0 < b.count := hp b (List.mem_cons_of_mem _ (List.mem_cons_self _ _))
    by_cases h : x ≤ b.mean
    · rw [sGoVal_bracket x p b t' hx h]
      calc p.cumn = sumInterp p.cumn p.mean p b := (sumInterp_lo p b p.cumn).symm
        _ ≤ sumInterp p.cumn x p b :=
          sumInterp_mono p b hm hlc hbc p.cumn p.mean x le_rfl (le_of_lt hx) h
    · rw [sGoVal_skip x p b t' h]
      push_neg at h
      have hlink := (cumLinked_cons hc).1
      have h1 : p.cumn ≤ b.cumn := by rw [hlink]; linarith
      exact le_trans h1 (sGoVal_lower x t' b (sorted_cons hs).2 (posCounts_tail hp)
        (cumLinked_cons hc).2 h)

lemma sGoVal_mono (x1 x2 : ℚ) : ∀ (t : List Bin) (p : Bin),
    SortedBins (p :: t) → PosCounts (p :: t) → CumLinked (p :: t) →
    p.mean < x1 → x1 ≤ x2 →
    sGoVal x1 p t ≤ sGoVal x2 p t
  | [], _, _, _, _, _, _ => by rw [sGoVal_nil, sGoVal_nil]
  | b :: t', p, hs, hp, hc, hx1, h12 => by
    have hx2 : p.mean < x2 := lt_of_lt_of_le hx1 h12
    have hm : p.mean < b.mean := (sorted_cons hs).1
    have hlc : 0 < p.count := hp p (List.mem_cons_self _ _)
    have hbc : 0 < b.count := hp b (List.mem_cons_of_mem _ (List.mem_cons_self _ _))
    by_cases h2 : x2 ≤ b.mean
    · have h1 : x1 ≤ b.mean := le_trans h12 h2
      rw [sGoVal_bracket x1 p b t' hx1 h1, sGoVal_bracket x2 p b t' hx2 h2]
      exact sumInterp_mono p b hm hlc hbc p.cumn x1 x2 (le_of_lt hx1) h12 h2
    · by_cases h1 : x1 ≤ b.mean
      · rw [sGoVal_bracket x1 p b t' hx1 h1, sGoVal_skip x2 p b t' h2]
        push_neg at h2
        have hlink := (cumLinked_cons hc).1
        have hstep : sumInterp p.cumn x1 p b ≤ b.cumn := by
          have hle := sumInterp_mono p b hm hlc hbc p.cumn x1 b.mean (le_of_lt hx1) h1 le_rfl
          rw [sumInterp_up p b hm p.cumn] at hle
          rw [hlink]
          exact hle
        exact le_trans hstep (sGoVal_lower x2 t' b (sorted_cons hs).2 (posCounts_tail hp)
          (cumLinked_cons hc).2 h2)
      · rw [sGoVal_skip x1 p b t' h1, sGoVal_skip x2 p b t' h2]
        push_neg at h1
        exact sGoVal_mono x1 x2 t' b (sorted_cons hs).2 (posCounts_tail hp)
          (cumLinked_cons hc).2 h1 h12

lemma cumn_le_lastCumn : ∀ (t : List Bin) (p : Bin),
    PosCounts (p :: t) → CumLinked (p :: t) → p.cumn ≤ lastCumn (p :: t)
  | [], p, _, _ => by unfold lastCumn; simp
  | b :: t', p, hp, hc => by
    have hlink := (cumLinked_cons hc).1
    have hlc : 0 < p.count := hp p (List.mem_cons_self _ _)
    have hbc : 0 < b.count := hp b (List.mem_cons_of_mem _ (List.mem_cons_self _ _))
    have h1 : p.cumn ≤ b.cumn := by rw [hlink]; linarith
    rw [lastCumn_cons_cons]
    exact le_trans h1 (cumn_le_lastCumn t' b (posCounts_tail hp) (cumLinked_cons hc).2)

lemma sGoVal_upper (x : ℚ) : ∀ (t : List Bin) (p : Bin),
    SortedBins (p :: t) → PosCounts (p :: t) → CumLinked (p :: t) → p.mean < x →
    sGoVal x p t ≤ lastCumn (p :: t)
  | [], p, _, _, _, _ => by rw [sGoVal_nil]; unfold lastCumn; simp
  | b :: t', p, hs, hp, hc, hx => by
    have hm : p.mean < b.mean := (sorted_cons hs).1
    have hlc : 0 < p.count := hp p (List.mem_cons_self _ _)
    have hbc : 0 < b.count := hp b (List.mem_cons_of_mem _ (List.mem_cons_self _ _))
    rw [lastCumn_cons_cons]
    by_cases h : x ≤ b.mean
    · rw [sGoVal_bracket x p b t' hx h]
      have hlink := (cumLinked_cons hc).1
      have hstep : sumInterp p.cumn x p b ≤ b.cumn := by
        have hle := sumInterp_mono p b hm hlc hbc p.cumn x b.mean (le_of_lt hx) h le_rfl
        rw [sumInterp_up p b hm p.cumn] at hle
        rw [hlink]
        exact hle
      exact le_trans hstep (cumn_le_lastCumn t' b (posCounts_tail hp) (cumLinked_cons hc).2)
    · rw [sGoVal_skip x p b t' h]
      push_neg at h
      exact sGoVal_upper x t' b (sorted_cons hs).2 (posCounts_tail hp) (cumLinked_cons hc).2 h

/-! #### The `_quantile` interpolation factor over ℝ -/

lemma quadratic_root_mono (L A C s1 s2 : ℝ) (hA : A ≠ 0) (h12 : s1 ≤ s2) :
    (-(2 * L) + Real.sqrt (2 * L * (2 * L) - 4 * A * (2 * (C - s1)))) / (2 * A) ≤
      (-(2 * L) + Real.sqrt (2 * L * (2 * L) - 4 * A * (2 * (C - s2)))) / (2 * A) := by
  rcases lt_or_gt_of_ne hA with hAneg | hApos
  · have hd : 2 * L * (2 * L) - 4 * A * (2 * (C - s2)) ≤
        2 * L * (2 * L) - 4 * A * (2 * (C - s1)) := by nlinarith
    have hs := Real.sqrt_le_sqrt hd
    rw [div_eq_mul_inv, div_eq_mul_inv]
    exact mul_le_mul_of_nonpos_right (by linarith) (inv_nonpos.mpr (by linarith))
  · have hd : 2 * L * (2 * L) - 4 * A * (2 * (C - s1)) ≤
        2 * L * (2 * L) - 4 * A * (2 * (C - s2)) := by nlinarith
    have hs := Real.sqrt_le_sqrt hd
    rw [div_le_div_iff₀ (by linarith) (by linarith)]
    nlinarith [hs]

lemma quadratic_root_zero (L A C : ℝ) (hL : 0 ≤ L) :
    (-(2 * L) + Real.sqrt (2 * L * (2 * L) - 4 * A * (2 * (C - C)))) / (2 * A) = 0 := by
  have h1 : 2 * L * (2 * L) - 4 * A * (2 * (C - C)) = (2 * L) * (2 * L) := by ring
  rw [h1, Real.sqrt_mul_self (by linarith)]
  simp

lemma quadratic_root_one (L U C D : ℝ) (hU : 0 < U) (hA : U - L ≠ 0)
    (hD : D - C = (L + U) / 2) :
    (-(2 * L) + Real.sqrt (2 * L * (2 * L) - 4 * (U - L) * (2 * (C - D)))) /
      (2 * (U - L)) = 1 := by
  have h1 : 2 * L * (2 * L) - 4 * (U - L) * (2 * (C - D)) = (2 * U) * (2 * U) := by
    have hCD : C - D = -((L + U) / 2) := by linarith
    rw [hCD]; ring
  rw [h1, Real.sqrt_mul_self (by linarith)]
  have h2 : (2 : ℝ) * (U - L) ≠ 0 := by
    intro h
    exact hA (by linarith)
  field_simp
  ring

lemma quantileZ_at_lo (lo up : Bin) (hlc : 0 < lo.count) : quantileZ lo.cumn lo up = 0 := by
  simp only [quantileZ]
  by_cases ha : up.count - lo.count = 0
  · rw [if_pos ha]
    by_cases hb : up.cumn - lo.cumn ≠ 0
    · rw [if_pos hb]
      simp
    · rw [if_neg hb]
      simp
  · rw [if_neg ha]
    push_cast
    exact quadratic_root_zero (lo.count : ℝ) ((up.count : ℝ) - lo.count) (lo.cumn : ℝ)
      (by positivity)

lemma quantileZ_at_up (lo up : Bin) (hlc : 0 < lo.count) (huc : 0 < up.count)
    (hlink : up.cumn = lo.cumn + (lo.count + up.count) / 2) :
    quantileZ up.cumn lo up = 1 := by
  simp only [quantileZ]
  by_cases ha : up.count - lo.count = 0
  · rw [if_pos ha]
    have hcc : up.count = lo.count := sub_eq_zero.mp ha
    have hb : up.cumn - lo.cumn = lo.count := by rw [hlink, hcc]; ring
    have hbne : up.cumn - lo.cumn ≠ 0 := by rw [hb]; exact ne_of_gt hlc
    rw [if_pos hbne, div_self hbne]
    exact Rat.cast_one
  · rw [if_neg ha]
    push_cast
    apply quadratic_root_one (lo.count : ℝ) (up.count : ℝ) (lo.cumn : ℝ) (up.cumn : ℝ)
    · exact_mod_cast huc
    · exact_mod_cast ha
    · have h : up.cumn - lo.cumn = (lo.count + up.count) / 2 := by rw [hlink]; ring
      exact_mod_cast h

lemma quantileZ_mono (lo up : Bin) (hlc : 0 < lo.count)
    (hlink : up.cumn = lo.cumn + (lo.count + up.count) / 2)
    (t1 t2 : ℚ) (h12 : t1 ≤ t2) :
    quantileZ t1 lo up ≤ quantileZ t2 lo up := by
  simp only [quantileZ]
  by_cases ha : up.count - lo.count = 0
  · rw [if_pos ha, if_pos ha]
    have hcc : up.count = lo.count := sub_eq_zero.mp ha
    have hb : up.cumn - lo.cumn = lo.count := by rw [hlink, hcc]; ring
    have hbne : up.cumn - lo.cumn ≠ 0 := by rw [hb]; exact ne_of_gt hlc
    rw [if_pos hbne, if_pos hbne]
    have hq : (t1 - lo.cumn) / (up.cumn - lo.cumn) ≤ (t2 - lo.cumn) / (up.cumn - lo.cumn) := by
      rw [hb]
      exact (div_le_div_iff_of_pos_right hlc).mpr (by linarith)
    exact_mod_cast hq
  · rw [if_neg ha, if_neg ha]
    push_cast
    apply quadratic_root_mono
    · exact (by exact_mod_cast ha : ((up.count : ℝ) - lo.count) ≠ 0)
    · exact_mod_cast h12

lemma quantileZ_nonneg (lo up : Bin) (hlc : 0 < lo.count)
    (hlink : up.cumn = lo.cumn + (lo.count + up.count) / 2)
    (t : ℚ) (h : lo.cumn ≤ t) : 0 ≤ quantileZ t lo up :=
  calc (0 : ℝ) = quantileZ lo.cumn lo up := (quantileZ_at_lo lo up hlc).symm
    _ ≤ quantileZ t lo up := quantileZ_mono lo up hlc hlink lo.cumn t h

lemma quantileZ_le_one (lo up : Bin) (hlc : 0 < lo.count) (huc : 0 < up.count)
    (hlink : up.cumn = lo.cumn + (lo.count + up.count) / 2)
    (t : ℚ) (h : t ≤ up.cumn) : quantileZ t lo up ≤ 1 :=
  calc quantileZ t lo up ≤ quantileZ up.cumn lo up :=
      quantileZ_mono lo up hlc hlink t up.cumn h
    _ = 1 := quantileZ_at_up lo up hlc huc hlink

lemma quantileVal_self (t : ℚ) (p : Bin) : quantileVal t p p = (p.mean : ℝ) := by
  unfold quantileVal
  ring

lemma quantileVal_mono_t (lo up : Bin) (hm : lo.mean < up.mean) (hlc : 0 < lo.count)
    (hlink : up.cumn = lo.cumn + (lo.count + up.count) / 2)
    (t1 t2 : ℚ) (h12 : t1 ≤ t2) :
    quantileVal t1 lo up ≤ quantileVal t2 lo up := by
  unfold quantileVal
  have hz := quantileZ_mono lo up hlc hlink t1 t2 h12
  have hmm : (lo.mean : ℝ) ≤ (up.mean : ℝ) := by exact_mod_cast hm.le
  nlinarith [hz, hmm]

lemma quantileVal_ge (lo up : Bin) (hm : lo.mean < up.mean) (hlc : 0 < lo.count)
    (hlink : up.cumn = lo.cumn + (lo.count + up.count) / 2)
    (t : ℚ) (h1 : lo.cumn ≤ t) :
    (lo.mean : ℝ) ≤ quantileVal t lo up := by
  unfold quantileVal
  have hz := quantileZ_nonneg lo up hlc hlink t h1
  have hmm : (lo.mean : ℝ) ≤ (up.mean : ℝ) := by exact_mod_cast hm.le
  nlinarith [hz, hmm]

lemma quantileVal_le (lo up : Bin) (hm : lo.mean < up.mean) (hlc : 0 < lo.count)
    (huc : 0 < up.count)
    (hlink : up.cumn = lo.cumn + (lo.count + up.count) / 2)
    (t : ℚ) (h2 : t ≤ up.cumn) :
    quantileVal t lo up ≤ (up.mean : ℝ) := by
  unfold quantileVal
  have hz := quantileZ_le_one lo up hlc huc hlink t h2
  have hmm : (lo.mean : ℝ) ≤ (up.mean : ℝ) := by exact_mod_cast hm.le
  nlinarith [hz, hmm]

/-! #### The `_quantile` scan: value bounds and monotonicity -/

lemma qGoVal_nil (x : ℚ) (p : Bin) : qGoVal x p [] = (p.mean : ℝ) := by
  unfold qGoVal
  show quantileVal x p p = _
  exact quantileVal_self x p

lemma qGoVal_bracket (x : ℚ) (p b : Bin) (t : List Bin) (hne : p.mean ≠ x) (h : b.cumn > x) :
    qGoVal x p (b :: t) = quantileVal x p b := by
  unfold qGoVal
  rw [show boundCumnGo x p (b :: t) = (some p, b) from by
    show (if b.cumn > x then (some p, if p.mean = x then p else b) else boundCumnGo x b t) =
      (some p, b)
    rw [if_pos h, if_neg hne]]
  rfl

lemma qGoVal_skip (x : ℚ) (p b : Bin) (t : List Bin) (h : ¬ b.cumn > x) :
    qGoVal x p (b :: t) = qGoVal x b t := by
  unfold qGoVal
  rw [show boundCumnGo x p (b :: t) = boundCumnGo x b t from by
    show (if b.cumn > x then (some p, if p.mean = x then p else b) else boundCumnGo x b t) = _
    rw [if_neg h]]

lemma qGoVal_lower (x : ℚ) : ∀ (t : List Bin) (p : Bin),
    SortedBins (p :: t) → PosCounts (p :: t) → CumLinked (p :: t) → p.cumn ≤ x →
    (∀ y ∈ p :: t, y.mean ≠ x) →
    (p.mean : ℝ) ≤ qGoVal x p t
  | [], p, _, _, _, _, _ => le_of_eq (qGoVal_nil x p).symm
  | b :: t', p, hs, hp, hc, hx, hne => by
    have hm : p.mean < b.mean := (sorted_cons hs).1
    have hlc : 0 < p.count := hp p (List.mem_cons_self _ _)
    have hlink := (cumLinked_cons hc).1
    by_cases h : b.cumn > x
    · rw [qGoVal_bracket x p b t' (hne p (List.mem_cons_self _ _)) h]
      exact quantileVal_ge p b hm hlc hlink x hx
    · rw [qGoVal_skip x p b t' h]
      push_neg at h
      have hrec := qGoVal_lower x t' b (sorted_cons hs).2 (posCounts_tail hp)
        (cumLinked_cons hc).2 h (fun y hy => hne y (List.mem_cons_of_mem _ hy))
      have hmr : (p.mean : ℝ) ≤ (b.mean : ℝ) := by exact_mod_cast hm.le
      linarith

lemma qGoVal_mono (x1 x2 : ℚ) : ∀ (t : List Bin) (p : Bin),
    SortedBins (p :: t) → PosCounts (p :: t) → CumLinked (p :: t) →
    p.cumn ≤ x1 → x1 ≤ x2 →
    (∀ y ∈ p :: t, y.mean ≠ x1) → (∀ y ∈ p :: t, y.mean ≠ x2) →
    qGoVal x1 p t ≤ qGoVal x2 p t
  | [], _, _, _, _, _, _, _, _ => by rw [qGoVal_nil, qGoVal_nil]
  | b :: t', p, hs, hp, hc, hx1, h12, hne1, hne2 => by
    have hm : p.mean < b.mean := (sorted_cons hs).1
    have hlc : 0 < p.count := hp p (List.mem_cons_self _ _)
    have hbc : 0 < b.count := hp b (List.mem_cons_of_mem _ (List.mem_cons_self _ _))
    have hlink := (cumLinked_cons hc).1
    by_cases h2 : b.cumn > x2
    · have h1 : b.cumn > x1 := lt_of_le_of_lt h12 h2
      rw [qGoVal_bracket x1 p b t' (hne1 p (List.mem_cons_self _ _)) h1,
        qGoVal_bracket x2 p b t' (hne2 p (List.mem_cons_self _ _)) h2]
      exact quantileVal_mono_t p b hm hlc hlink x1 x2 h12
    · by_cases h1 : b.cumn > x1
      · rw [qGoVal_bracket x1 p b t' (hne1 p (List.mem_cons_self _ _)) h1,
          qGoVal_skip x2 p b t' h2]
        push_neg at h2
        have hup : quantileVal x1 p b ≤ (b.mean : ℝ) :=
          quantileVal_le p b hm hlc hbc hlink x1 (le_of_lt h1)
        have hlow := qGoVal_lower x2 t' b (sorted_cons hs).2 (posCounts_tail hp)
          (cumLinked_cons hc).2 h2 (fun y hy => hne2 y (List.mem_cons_of_mem _ hy))
        linarith
      · rw [qGoVal_skip x1 p b t' h1, qGoVal_skip x2 p b t' h2]
        push_neg at h1
        exact qGoVal_mono x1 x2 t' b (sorted_cons hs).2 (posCounts_tail hp)
          (cumLinked_cons hc).2 h1 h12 (fun y hy => hne1 y (List.mem_cons_of_mem _ hy))
          (fun y hy => hne2 y (List.mem_cons_of_mem _ hy))

/-! #### Extraction: the query operations in terms of the scan values -/

lemma sumOp_spec (s : State) (x : ℚ) (hd : Bin) (t : List Bin)
    (hlen : ¬ s.bins.length = 0)
    (hmin : ¬ x < jsMin s) (hmax : ¬ x ≥ jsMax s)
    (hcl : (cumulate s).bins = hd :: t)
    (hhd : hd.cumn = hd.count / 2) :
    sumOp s x =
      (some (if x ≤ hd.mean then
          sumValC x hd (if hd.mean = x ∨ t.isEmpty then hd else t.headD hd)
        else sGoVal x hd t), cumulate s) := by
  rw [sumOp, if_neg hlen, if_neg hmin, if_neg hmax]
  dsimp only
  rw [hcl]
  have hb : bound x (hd :: t) =
      some (if x ≤ hd.mean then (hd, if hd.mean = x ∨ t.isEmpty then hd else t.headD hd)
        else boundGo x hd t) := rfl
  rw [hb]
  by_cases hx : x ≤ hd.mean
  · rw [if_pos hx, if_pos hx]
    show (if x - hd.mean = 0 then (some hd.cumn, cumulate s)
        else (some (sumInterp (if (hd :: t).headD default = hd then hd.count / 2 else hd.cumn)
          x hd (if hd.mean = x ∨ t.isEmpty then hd else t.headD hd)), cumulate s)) =
      (some (sumValC x hd (if hd.mean = x ∨ t.isEmpty then hd else t.headD hd)), cumulate s)
    unfold sumValC
    by_cases hz : x - hd.mean = 0
    · rw [if_pos hz, if_pos hz]
    · have hh0 : (hd :: t).headD default = hd := rfl
      rw [if_neg hz, if_neg hz, if_pos hh0, ← hhd]
  · rw [if_neg hx, if_neg hx]
    rcases hgo : boundGo x hd t with ⟨lo, up⟩
    show (if x - lo.mean = 0 then (some lo.cumn, cumulate s)
        else (some (sumInterp (if (hd :: t).headD default = lo then lo.count / 2 else lo.cumn)
          x lo up), cumulate s)) = (some (sGoVal x hd t), cumulate s)
    unfold sGoVal
    rw [hgo]
    show _ = (some (sumValC x lo up), cumulate s)
    unfold sumValC
    by_cases hz : x - lo.mean = 0
    · rw [if_pos hz, if_pos hz]
    · rw [if_neg hz, if_neg hz]
      by_cases hh : (hd :: t).headD default = lo
      · rw [if_pos hh]
        have hh' : hd = lo := hh
        rw [← hh', ← hhd]
      · rw [if_neg hh]

lemma boundCumnGo_go : ∀ (t : List Bin) (x : ℚ) (p : Bin),
    ∃ lo up, boundCumnGo x p t = (some lo, up)
  | [], _, p => ⟨p, p, rfl⟩
  | b :: t', x, p => by
    by_cases h : b.cumn > x
    · refine ⟨p, if p.mean = x then p else b, ?_⟩
      show (if b.cumn > x then (some p, if p.mean = x then p else b) else boundCumnGo x b t') = _
      rw [if_pos h]
    · obtain ⟨lo, up, he⟩ := boundCumnGo_go t' x b
      refine ⟨lo, up, ?_⟩
      show (if b.cumn > x then (some p, if p.mean = x then p else b) else boundCumnGo x b t') = _
      rw [if_neg h]
      exact he

lemma quantileOp_spec (s : State) (q : ℚ) (hd : Bin) (t : List Bin)
    (hlen : ¬ s.bins.length = 0) (h0 : ¬ q ≤ 0) (h1 : ¬ q ≥ 1)
    (hcl : (cumulate s).bins = hd :: t)
    (hge : ¬ hd.cumn > s.count * q) :
    quantileOp s q = .ok (some (qGoVal (s.count * q) hd t), cumulate s) := by
  rw [quantileOp, if_neg hlen, if_neg h0, if_neg h1]
  dsimp only
  rw [hcl]
  have hb : boundCumn (s.count * q) (hd :: t) = boundCumnGo (s.count * q) hd t := by
    show (if hd.cumn > s.count * q then (none, hd) else boundCumnGo (s.count * q) hd t) = _
    rw [if_neg hge]
  rw [hb]
  obtain ⟨lo, up, he⟩ := boundCumnGo_go t (s.count * q) hd
  rw [he]
  show Except.ok (some (quantileVal (s.count * q) lo up), cumulate s) = _
  unfold qGoVal
  rw [he]
  rfl

/-- C8, amended.  The claimed monotonicity fails in general (see the
counterexample: a target mass hitting a bin *mean* in `_boundCumn`, and
`_sum` extrapolating below the smallest bin mean), but it does hold on
the interior domain the interpolation was designed for.  For a sorted,
positive-count sketch whose cumn cache is coherent: (a) `quantile` is
non-decreasing over quantiles `0 < q1 ≤ q2 < 1` whose target masses
`count·q` lie at or above the first bin's half-count and avoid every
bin mean (the `lo.mean === x` comparison); (b) `sum` is non-decreasing
over arguments between the smallest and largest bin means when
`min ≤` first mean, last mean `≤ max`, and `count` matches the bin
totals. -/
theorem c8_monotone (s : State) (hs : SortedBins s.bins) (hp : PosCounts s.bins)
    (hne : s.bins ≠ []) (hfresh : (cumulate s).bins = cumulateBins 0 s.bins) :
    (∀ q1 q2 : ℚ, 0 < q1 → q1 ≤ q2 → q2 < 1 → 0 ≤ s.count →
      (s.bins.headD default).count / 2 ≤ s.count * q1 →
      (∀ b ∈ s.bins, b.mean ≠ s.count * q1) →
      (∀ b ∈ s.bins, b.mean ≠ s.count * q2) →
      ∃ v1 v2 : ℝ, quantileOp s q1 = .ok (some v1, cumulate s) ∧
        quantileOp s q2 = .ok (some v2, cumulate s) ∧ v1 ≤ v2) ∧
    (∀ x1 x2 mn mx : ℚ, s.minv = some mn → s.maxv = some mx → Inv s →
      mn ≤ (s.bins.headD default).mean → lastMean s.bins ≤ mx →
      (s.bins.headD default).mean ≤ x1 → x1 ≤ x2 → x2 ≤ lastMean s.bins →
      ∃ (v1 v2 : ℚ) (s1 s2 : State),
        sumOp s x1 = (some v1, s1) ∧ sumOp s x2 = (some v2, s2) ∧ v1 ≤ v2) := by
  obtain ⟨hd0, t0, hbins⟩ := List.exists_cons_of_ne_nil hne
  have hex : ∃ hd t, (cumulate s).bins = hd :: t ∧ hd.mean = hd0.mean ∧
      hd.count = hd0.count ∧ hd.cumn = hd0.count / 2 := by
    refine ⟨⟨hd0.mean, hd0.count, hd0.tss, 0 + hd0.count / 2⟩,
      cumulateBins (0 + hd0.count) t0, ?_, rfl, rfl, ?_⟩
    · rw [hfresh, hbins]
      rfl
    · show 0 + hd0.count / 2 = hd0.count / 2
      ring
  obtain ⟨hd, t, hcl, hdm, hdc, hdcu⟩ := hex
  have hhd : hd.cumn = hd.count / 2 := by rw [hdcu, hdc]
  have hscl : SortedBins (hd :: t) := by
    rw [← hcl, hfresh]
    exact cumulateBins_sorted s.bins 0 hs
  have hpcl : PosCounts (hd :: t) := by
    rw [← hcl, hfresh]
    exact cumulateBins_pos s.bins 0 hp
  have hccl : CumLinked (hd :: t) := by
    rw [← hcl, hfresh]
    exact cumulateBins_linked s.bins 0
  have hlen : ¬ s.bins.length = 0 := by rw [hbins]; simp
  have hhm : s.bins.headD default = hd0 := by rw [hbins]; rfl
  have hmemmean : ∀ y ∈ hd :: t, ∃ b ∈ s.bins, y.mean = b.mean := by
    intro y hy
    have h1 : y.mean ∈ (hd :: t).map Bin.mean := List.mem_map_of_mem _ hy
    rw [← hcl, hfresh, cumulateBins_map_mean] at h1
    obtain ⟨b, hb, he⟩ := List.mem_map.mp h1
    exact ⟨b, hb, he.symm⟩
  constructor
  · intro q1 q2 hq1 h12 hq2 hcnt hlow hnc1 hnc2
    have h12' : s.count * q1 ≤ s.count * q2 := mul_le_mul_of_nonneg_left h12 hcnt
    have hlow' : hd0.count / 2 ≤ s.count * q1 := by rw [hhm] at hlow; exact hlow
    have hcu1 : hd.cumn ≤ s.count * q1 := by rw [hhd, hdc]; exact hlow'
    have hge1 : ¬ hd.cumn > s.count * q1 := not_lt.mpr hcu1
    have hge2 : ¬ hd.cumn > s.count * q2 := not_lt.mpr (le_trans hcu1 h12')
    have h01 : ¬ q1 ≤ 0 := not_le.mpr hq1
    have h02 : ¬ q2 ≤ 0 := not_le.mpr (lt_of_lt_of_le hq1 h12)
    have h11 : ¬ q1 ≥ 1 := not_le.mpr (lt_of_le_of_lt h12 hq2)
    have h12q : ¬ q2 ≥ 1 := not_le.mpr hq2
    have hne1' : ∀ y ∈ hd :: t, y.mean ≠ s.count * q1 := by
      intro y hy
      obtain ⟨b, hb, he⟩ := hmemmean y hy
      rw [he]
      exact hnc1 b hb
    have hne2' : ∀ y ∈ hd :: t, y.mean ≠ s.count * q2 := by
      intro y hy
      obtain ⟨b, hb, he⟩ := hmemmean y hy
      rw [he]
      exact hnc2 b hb
    exact ⟨qGoVal (s.count * q1) hd t, qGoVal (s.count * q2) hd t,
      quantileOp_spec s q1 hd t hlen h01 h11 hcl hge1,
      quantileOp_spec s q2 hd t hlen h02 h12q hcl hge2,
      qGoVal_mono (s.count * q1) (s.count * q2) t hd hscl hpcl hccl hcu1 h12' hne1' hne2'⟩
  · intro x1 x2 mn mx hmn hmx hinv hmnle hmxge hx1 hx12 hx2
    have hjmin : jsMin s = mn := by unfold jsMin; rw [hmn]; rfl
    have hjmax : jsMax s = mx := by unfold jsMax; rw [hmx]; rfl
    have hx1' : hd0.mean ≤ x1 := by rw [hhm] at hx1; exact hx1
    have hmnle' : mn ≤ hd0.mean := by rw [hhm] at hmnle; exact hmnle
    have hmin1 : ¬ x1 < jsMin s := by
      rw [hjmin]
      exact not_lt.mpr (le_trans hmnle' hx1')
    have hmin2 : ¬ x2 < jsMin s := by
      rw [hjmin]
      exact not_lt.mpr (le_trans (le_trans hmnle' hx1') hx12)
    have hpb : PosCounts (hd0 :: t0) := by rw [← hbins]; exact hp
    have hp0 : 0 < hd0.count := hpb hd0 (List.mem_cons_self _ _)
    have hbs0 : 0 ≤ binSum t0 := binSum_nonneg t0 (posCounts_tail hpb)
    have hinv' : s.count = hd0.count + binSum t0 := by rw [hinv, hbins, binSum_cons]
    have hdm1 : hd.mean ≤ x1 := by rw [hdm]; exact hx1'
    by_cases hT : x2 ≥ mx
    · have hs2 : sumOp s x2 = (some s.count, s) := by
        rw [sumOp, if_neg hlen, if_neg hmin2, if_pos (show x2 ≥ jsMax s by rw [hjmax]; exact hT)]
      by_cases hT1 : x1 ≥ mx
      · have hs1 : sumOp s x1 = (some s.count, s) := by
          rw [sumOp, if_neg hlen, if_neg hmin1,
            if_pos (show x1 ≥ jsMax s by rw [hjmax]; exact hT1)]
        exact ⟨s.count, s.count, s, s, hs1, hs2, le_rfl⟩
      · have hmax1 : ¬ x1 ≥ jsMax s := by rw [hjmax]; exact hT1
        have hspec1 := sumOp_spec s x1 hd t hlen hmin1 hmax1 hcl hhd
        refine ⟨_, s.count, cumulate s, s, hspec1, hs2, ?_⟩
        by_cases hxh : x1 ≤ hd.mean
        · rw [if_pos hxh]
          have hx1eq : x1 = hd.mean := le_antisymm hxh hdm1
          have hz : x1 - hd.mean = 0 := by rw [hx1eq, sub_self]
          unfold sumValC
          rw [if_pos hz, hhd, hdc]
          linarith
        · rw [if_neg hxh]
          push_neg at hxh
          have hub := sGoVal_upper x1 t hd hscl hpcl hccl hxh
          have hlcumn : lastCumn (hd :: t) =
              0 + binSum s.bins - (s.bins.getLast?.getD default).count / 2 := by
            rw [← hcl, hfresh]
            exact cumulateBins_lastCumn s.bins 0 hne
          have hlastpos : 0 < (s.bins.getLast?.getD default).count :=
            posCounts_last s.bins hne hp
          have hcount : s.count = binSum s.bins := hinv
          rw [hlcumn] at hub
          linarith
    · push_neg at hT
      have hmax2 : ¬ x2 ≥ jsMax s := by rw [hjmax]; exact not_le.mpr hT
      have hmax1 : ¬ x1 ≥ jsMax s := by rw [hjmax]; exact not_le.mpr (lt_of_le_of_lt hx12 hT)
      have hspec1 := sumOp_spec s x1 hd t hlen hmin1 hmax1 hcl hhd
      have hspec2 := sumOp_spec s x2 hd t hlen hmin2 hmax2 hcl hhd
      refine ⟨_, _, cumulate s, cumulate s, hspec1, hspec2, ?_⟩
      by_cases hxh1 : x1 ≤ hd.mean
      · rw [if_pos hxh1]
        have hx1eq : x1 = hd.mean := le_antisymm hxh1 hdm1
        have hz1 : x1 - hd.mean = 0 := by rw [hx1eq, sub_self]
        have hv1 : ∀ u : Bin, sumValC x1 hd u = hd.cumn := by
          intro u
          unfold sumValC
          rw [if_pos hz1]
        rw [hv1]
        by_cases hxh2 : x2 ≤ hd.mean
        · rw [if_pos hxh2]
          have hx2eq : x2 = hd.mean := le_antisymm hxh2 (le_trans hdm1 hx12)
          have hz2 : x2 - hd.mean = 0 := by rw [hx2eq, sub_self]
          have hv2 : ∀ u : Bin, sumValC x2 hd u = hd.cumn := by
            intro u
            unfold sumValC
            rw [if_pos hz2]
          rw [hv2]
        · rw [if_neg hxh2]
          push_neg at hxh2
          exact sGoVal_lower x2 t hd hscl hpcl hccl hxh2
      · rw [if_neg hxh1]
        push_neg at hxh1
        have hxh2 : ¬ x2 ≤ hd.mean := not_le.mpr (lt_of_lt_of_le hxh1 hx12)
        rw [if_neg hxh2]
        exact sGoVal_mono x1 x2 t hd hscl hpcl hccl hxh1 hx12

/-- Witness for `c8_monotone` on `push([2, 2, 5, 5])` with quantiles
`3/10 ≤ 7/10` (target masses `6/5`, `14/5` avoid the bin means `2`, `5`)
and sum arguments `3 ≤ 4` inside `[2, 5]`. -/
theorem c8_monotone_witness :
    (∃ v1 v2 : ℝ, quantileOp quadHist (3 / 10) = .ok (some v1, cumulate quadHist) ∧
      quantileOp quadHist (7 / 10) = .ok (some v2, cumulate quadHist) ∧ v1 ≤ v2) ∧
    (∃ (v1 v2 : ℚ) (s1 s2 : State),
      sumOp quadHist 3 = (some v1, s1) ∧ sumOp quadHist 4 = (some v2, s2) ∧ v1 ≤ v2) := by
  obtain ⟨hq, hsum⟩ := c8_monotone quadHist (by with_unfolding_all decide)
    (by with_unfolding_all decide) (by with_unfolding_all decide) (by with_unfolding_all decide)
  exact ⟨hq (3 / 10) (7 / 10) (by norm_num) (by norm_num) (by norm_num)
      (by with_unfolding_all decide) (by with_unfolding_all decide)
      (by with_unfolding_all decide) (by with_unfolding_all decide),
    hsum 3 4 2 5 (by with_unfolding_all decide) (by with_unfolding_all decide)
      (by with_unfolding_all decide) (by with_unfolding_all decide)
      (by with_unfolding_all decide) (by with_unfolding_all decide) (by norm_num)
      (by with_unfolding_all decide)⟩

end StreamHist
